import Mathlib

/-!
Shallow embedding of `src/tictactoe.py` (danieloh99/TicTacToe).

The Python program stores the board as a list of 9 one-character strings,
each `'_'`, `'X'` or `'O'`.  We embed cells as the inductive type `Cell`
and the board as `List Cell`.  Python's `board[i]` on the 9-element board
is embedded as `List.getD b i Cell.E` (all indices used by the game logic
lie in `range(9)`), and the statement `board[i] = m` as
`List.set b i m`.

Aliasing note: in `AI.minimax` the maximizer branch tests
`self.board[index] != '_'` while mutating `board[index]`.  In every call
of the program, `board` *is* `self.board` (the one game board object:
`AI.get_move` calls `get_move_helper(self.board)` and all recursive calls
pass the same list object), so both expressions read the same list and the
embedding uses the single board argument `b` for both.

Identity note: the source compares `check_win(board) is not 'None'`; the
literal `'None'` is an interned CPython string, so the comparison behaves
as string inequality, embedded as `≠ none` on `Option Cell`.
-/

inductive Cell : Type
  | E : Cell
  | X : Cell
  | O : Cell
deriving DecidableEq, Repr

/-- Board of the game: the Python list of 9 cells. -/
def Board : Type := List Cell

instance : DecidableEq Board := inferInstanceAs (DecidableEq (List Cell))

/-- The empty board created by `Game.__init__`: nine `'_'` entries. -/
def emptyBoard : Board :=
  [Cell.E, Cell.E, Cell.E, Cell.E, Cell.E, Cell.E, Cell.E, Cell.E, Cell.E]

/-- Opponent mark computation of `AI.__init__` and the minimizer branch:
`'X' if id == 'O' else 'O'`. -/
def oppOf (c : Cell) : Cell :=
  if c = Cell.O then Cell.X else Cell.O

/-- Turn flip of `Game.update_board`: `'O' if self.turn == 'X' else 'X'`. -/
def flipTurn (c : Cell) : Cell :=
  if c = Cell.X then Cell.O else Cell.X

/-- The eight winning index triples `Game.win_conditions`. -/
def win_conditions : List (Nat × Nat × Nat) :=
  [(0, 1, 2), (3, 4, 5), (6, 7, 8),
   (0, 3, 6), (1, 4, 7), (2, 5, 8),
   (0, 4, 8), (2, 4, 6)]

/-- Loop body of `Game.check_win`: scan the win conditions in order; if the
three cells of a line are all `'X'` return `'X'`, else if all `'O'` return
`'O'`; if no line matches return the sentinel `'None'` (here `none`). -/
def checkWinAux (b : Board) : List (Nat × Nat × Nat) → Option Cell
  | [] => none
  | (i, j, k) :: rest =>
    if b.getD i Cell.E = b.getD j Cell.E ∧ b.getD j Cell.E = b.getD k Cell.E ∧
        b.getD k Cell.E = Cell.X then
      some Cell.X
    else if b.getD i Cell.E = b.getD j Cell.E ∧ b.getD j Cell.E = b.getD k Cell.E ∧
        b.getD k Cell.E = Cell.O then
      some Cell.O
    else
      checkWinAux b rest

/-- Embedding of `Game.check_win`. -/
def check_win (b : Board) : Option Cell :=
  checkWinAux b win_conditions

/-- Loop of `Game.board_is_full` over `range(9)`: return `False` at the
first `'_'` cell, `True` if none is found. -/
def fullAux (b : Board) : List Nat → Bool
  | [] => true
  | i :: rest => if b.getD i Cell.E = Cell.E then false else fullAux b rest

/-- Embedding of `Game.board_is_full`. -/
def board_is_full (b : Board) : Bool :=
  fullAux b (List.range 9)

/-- Number of empty cells among indices 0–8; the termination measure of the
minimax recursion. -/
def countEmptyIdx (b : Board) : Nat :=
  (List.range 9).countP (fun i => b.getD i Cell.E = Cell.E)

/-- Maximizer loop of `AI.minimax`: for each index in order, skip occupied
cells, otherwise take the max of the accumulator and the score of the board
with the AI mark placed at that index. -/
def maxLoop (f : Nat → Int) (b : Board) : List Nat → Int → Int
  | [], acc => acc
  | i :: rest, acc =>
    if b.getD i Cell.E ≠ Cell.E then maxLoop f b rest acc
    else maxLoop f b rest (max acc (f i))

/-- Minimizer loop of `AI.minimax`, dually with min. -/
def minLoop (f : Nat → Int) (b : Board) : List Nat → Int → Int
  | [], acc => acc
  | i :: rest, acc =>
    if b.getD i Cell.E ≠ Cell.E then minLoop f b rest acc
    else minLoop f b rest (min acc (f i))

/-- Embedding of `AI.minimax`, with an explicit fuel argument bounding the
recursion depth.  Every call with `fuel > countEmptyIdx b` (on a length-9
board) is fuel-independent, proved below; the program itself recurses on a
board whose empty-cell count shrinks by one each level.  `ai` is `self.id`,
`depth` is tracked but never used for scoring, exactly as in the source. -/
def minimaxF (ai : Cell) : Nat → Board → Nat → Bool → Int
  | 0, _, _, _ => 0
  | fuel + 1, b, depth, aiTurn =>
    if check_win b = some (oppOf ai) then -1
    else if check_win b ≠ none then 1
    else if board_is_full b then 0
    else if aiTurn then
      maxLoop (fun i => minimaxF ai fuel (b.set i ai) (depth + 1) false) b
        (List.range 9) (-2)
    else
      minLoop (fun i => minimaxF ai fuel (b.set i (oppOf ai)) (depth + 1) true) b
        (List.range 9) 2

/-- The minimax score function: fuel 10 exceeds the at most 9 empty cells
of any board, hence equals the source's unbounded recursion. -/
def minimax (ai : Cell) (b : Board) (depth : Nat) (aiTurn : Bool) : Int :=
  minimaxF ai 10 b depth aiTurn

/-- Loop of `AI.get_move_helper`: scan indices 0–8, skip occupied cells,
evaluate `minimax(board with ai at i, 0, False)`, and remember the first
index whose value strictly exceeds the best value seen (initially -1). -/
def helperLoop (ai : Cell) (b : Board) :
    List Nat → Option Nat → Int → Option Nat
  | [], bestMove, _ => bestMove
  | i :: rest, bestMove, bestValue =>
    if b.getD i Cell.E ≠ Cell.E then helperLoop ai b rest bestMove bestValue
    else
      let v := minimax ai (b.set i ai) 0 false
      if v > bestValue then helperLoop ai b rest (some i) v
      else helperLoop ai b rest bestMove bestValue

/-- Embedding of `AI.get_move_helper`; returns `none` exactly when
`best_move` stays `None` in the Python code. -/
def get_move_helper (ai : Cell) (b : Board) : Option Nat :=
  helperLoop ai b (List.range 9) none (-1)

/-! ### Stateful versions of the search

`AI.minimax` and `AI.get_move_helper` mutate the board in place and undo
each mutation.  The definitions below thread the board state explicitly,
mirroring the imperative code statement by statement; the theorems for the
frame claim show that each call returns the board it received, and that
the first component agrees with the pure functions above. -/

/-- Stateful maximizer loop: place `mark`, run the recursive evaluation
`rec` on the mutated board, then write `'_'` back, threading the board. -/
def maxLoopS (rec : Board → Int × Board) (mark : Cell) :
    Board → List Nat → Int → Int × Board
  | b, [], acc => (acc, b)
  | b, i :: rest, acc =>
    if b.getD i Cell.E ≠ Cell.E then maxLoopS rec mark b rest acc
    else
      let p := rec (b.set i mark)
      maxLoopS rec mark (p.2.set i Cell.E) rest (max acc p.1)

/-- Stateful minimizer loop. -/
def minLoopS (rec : Board → Int × Board) (mark : Cell) :
    Board → List Nat → Int → Int × Board
  | b, [], acc => (acc, b)
  | b, i :: rest, acc =>
    if b.getD i Cell.E ≠ Cell.E then minLoopS rec mark b rest acc
    else
      let p := rec (b.set i mark)
      minLoopS rec mark (p.2.set i Cell.E) rest (min acc p.1)

/-- Stateful embedding of `AI.minimax`, returning the score together with
the board as left behind by the call. -/
def minimaxS (ai : Cell) : Nat → Board → Nat → Bool → Int × Board
  | 0, b, _, _ => (0, b)
  | fuel + 1, b, depth, aiTurn =>
    if check_win b = some (oppOf ai) then (-1, b)
    else if check_win b ≠ none then (1, b)
    else if board_is_full b then (0, b)
    else if aiTurn then
      maxLoopS (fun x => minimaxS ai fuel x (depth + 1) false) ai b
        (List.range 9) (-2)
    else
      minLoopS (fun x => minimaxS ai fuel x (depth + 1) true) (oppOf ai) b
        (List.range 9) 2

/-- Stateful loop of `AI.get_move_helper`. -/
def helperLoopS (rec : Board → Int × Board) (ai : Cell) :
    Board → List Nat → Option Nat → Int → Option Nat × Board
  | b, [], bestMove, _ => (bestMove, b)
  | b, i :: rest, bestMove, bestValue =>
    if b.getD i Cell.E ≠ Cell.E then helperLoopS rec ai b rest bestMove bestValue
    else
      let p := rec (b.set i ai)
      if p.1 > bestValue then helperLoopS rec ai (p.2.set i Cell.E) rest (some i) p.1
      else helperLoopS rec ai (p.2.set i Cell.E) rest bestMove bestValue

/-- Stateful embedding of `AI.get_move_helper`. -/
def get_move_helperS (ai : Cell) (b : Board) : Option Nat × Board :=
  helperLoopS (fun x => minimaxS ai 10 x 0 false) ai b (List.range 9) none (-1)

/-! ### Game state, board update and move validation -/

/-- The mutable state of `Game` that the turn loop touches. -/
structure GameState where
  board : Board
  turn : Cell
  moves_count : Nat
deriving DecidableEq

/-- Python list assignment `l[i] = v` with an `int` index: indices in
`[0, len)` write directly, indices in `[-len, 0)` count from the end, and
anything else raises `IndexError` (modelled as `none`). -/
def pyListSet (l : List Cell) (i : Int) (v : Cell) : Option (List Cell) :=
  if 0 ≤ i ∧ i < (l.length : Int) then some (l.set i.toNat v)
  else if -(l.length : Int) ≤ i ∧ i < 0 then some (l.set (i + l.length).toNat v)
  else none

/-- Embedding of `Game.update_board(self, turn, location)`: writes
`self.turn` (not the `turn` argument) at `location` and flips `self.turn`.
There is no bounds or occupancy validation in this method. -/
def update_board (g : GameState) (turn : Cell) (location : Int) :
    Option GameState :=
  match pyListSet g.board location g.turn with
  | some b => some ⟨b, flipTurn g.turn, g.moves_count⟩
  | none => none

/-- Validation performed by `Player.get_move` on a parsed integer: returns
-1 for an out-of-range spot or an occupied cell, the spot itself otherwise. -/
def get_move_check (b : Board) (spot : Int) : Int :=
  if spot < 0 ∨ 8 < spot then -1
  else if b.getD spot.toNat Cell.E ≠ Cell.E then -1
  else spot

/-! ### Outcome abstraction from the specification

The specification abstracts `check_win`'s sentinel values plus
`board_is_full` into a tagged outcome.  `specCheckWin` is the
specification-side definition (the spec's `checkWin`), built on the two
code-level functions. -/

inductive GameOutcome : Type
  | InProgress : GameOutcome
  | Win : Cell → GameOutcome
  | Draw : GameOutcome
deriving DecidableEq, Repr

/-- The spec's `checkWin(cells) -> GameOutcome`: `Win(mark)` from a matched
line, else `Draw` on a full board, else `InProgress`. -/
def specCheckWin (b : Board) : GameOutcome :=
  match check_win b with
  | some m => GameOutcome.Win m
  | none => if board_is_full b then GameOutcome.Draw else GameOutcome.InProgress

/-- Condition under which a win line is accepted for mark `m` by
`Game.check_win`: the three indexed cells are equal and the third is `m`. -/
def lineAll (b : Board) (l : Nat × Nat × Nat) (m : Cell) : Prop :=
  b.getD l.1 Cell.E = b.getD l.2.1 Cell.E ∧
  b.getD l.2.1 Cell.E = b.getD l.2.2 Cell.E ∧
  b.getD l.2.2 Cell.E = m

instance (b : Board) (l : Nat × Nat × Nat) (m : Cell) : Decidable (lineAll b l m) :=
  inferInstanceAs (Decidable (_ ∧ _ ∧ _))

/-! ### Reachable game states

`Reach` models `Game.play`: starting from the empty board with X to move,
while the previous win check returned the sentinel `'None'` and fewer than
9 moves were made, the active player supplies a move that passed the
`Player.get_move` validation (an empty cell with index in `[0,8]`), and
`update_board` writes the current turn's mark and flips the turn.
`ReachAI` restricts the O player to the move computed by
`AI.get_move_helper`, as in a game against the computer. -/

inductive Reach : GameState → Prop
  | init : Reach ⟨emptyBoard, Cell.X, 0⟩
  | step (g : GameState) (loc : Nat) :
      Reach g → check_win g.board = none → g.moves_count ≠ 9 →
      loc ≤ 8 → g.board.getD loc Cell.E = Cell.E →
      Reach ⟨g.board.set loc g.turn, flipTurn g.turn, g.moves_count + 1⟩

inductive ReachAI : GameState → Prop
  | init : ReachAI ⟨emptyBoard, Cell.X, 0⟩
  | stepHuman (g : GameState) (loc : Nat) :
      ReachAI g → g.turn = Cell.X → check_win g.board = none →
      g.moves_count ≠ 9 → loc ≤ 8 → g.board.getD loc Cell.E = Cell.E →
      ReachAI ⟨g.board.set loc Cell.X, Cell.O, g.moves_count + 1⟩
  | stepAI (g : GameState) (m : Nat) :
      ReachAI g → g.turn = Cell.O → check_win g.board = none →
      g.moves_count ≠ 9 → get_move_helper Cell.O g.board = some m →
      ReachAI ⟨g.board.set m Cell.O, Cell.X, g.moves_count + 1⟩

/-! ### A certified never-losing checker

`goodT` is a Boolean pruning evaluator over the nine cells, used only to
establish (by evaluation) that the minimax value of the empty board is
nonnegative for the O player; the soundness theorem below ties it to
`minimaxF`.  At a minimizing level every legal X reply must stay good; at
a maximizing level one good O move suffices, so evaluation short-circuits. -/

def winB (m c0 c1 c2 c3 c4 c5 c6 c7 c8 : Cell) : Bool :=
  (c0 == c1 && c1 == c2 && c2 == m) ||
  (c3 == c4 && c4 == c5 && c5 == m) ||
  (c6 == c7 && c7 == c8 && c8 == m) ||
  (c0 == c3 && c3 == c6 && c6 == m) ||
  (c1 == c4 && c4 == c7 && c7 == m) ||
  (c2 == c5 && c5 == c8 && c8 == m) ||
  (c0 == c4 && c4 == c8 && c8 == m) ||
  (c2 == c4 && c4 == c6 && c6 == m)

def fullB (c0 c1 c2 c3 c4 c5 c6 c7 c8 : Cell) : Bool :=
  !(c0 == Cell.E) && !(c1 == Cell.E) && !(c2 == Cell.E) &&
  !(c3 == Cell.E) && !(c4 == Cell.E) && !(c5 == Cell.E) &&
  !(c6 == Cell.E) && !(c7 == Cell.E) && !(c8 == Cell.E)

def goodT : Nat → Cell → Cell → Cell → Cell → Cell → Cell → Cell → Cell → Cell → Bool → Bool
  | 0, _, _, _, _, _, _, _, _, _, _ => false
  | fuel + 1, c0, c1, c2, c3, c4, c5, c6, c7, c8, aiTurn =>
    cond (winB Cell.X c0 c1 c2 c3 c4 c5 c6 c7 c8) false
    (cond (winB Cell.O c0 c1 c2 c3 c4 c5 c6 c7 c8) true
    (cond (fullB c0 c1 c2 c3 c4 c5 c6 c7 c8) true
    (cond aiTurn
      ((c0 == Cell.E && goodT fuel Cell.O c1 c2 c3 c4 c5 c6 c7 c8 false) ||
       (c1 == Cell.E && goodT fuel c0 Cell.O c2 c3 c4 c5 c6 c7 c8 false) ||
       (c2 == Cell.E && goodT fuel c0 c1 Cell.O c3 c4 c5 c6 c7 c8 false) ||
       (c3 == Cell.E && goodT fuel c0 c1 c2 Cell.O c4 c5 c6 c7 c8 false) ||
       (c4 == Cell.E && goodT fuel c0 c1 c2 c3 Cell.O c5 c6 c7 c8 false) ||
       (c5 == Cell.E && goodT fuel c0 c1 c2 c3 c4 Cell.O c6 c7 c8 false) ||
       (c6 == Cell.E && goodT fuel c0 c1 c2 c3 c4 c5 Cell.O c7 c8 false) ||
       (c7 == Cell.E && goodT fuel c0 c1 c2 c3 c4 c5 c6 Cell.O c8 false) ||
       (c8 == Cell.E && goodT fuel c0 c1 c2 c3 c4 c5 c6 c7 Cell.O false))
      ((!(c0 == Cell.E) || goodT fuel Cell.X c1 c2 c3 c4 c5 c6 c7 c8 true) &&
       (!(c1 == Cell.E) || goodT fuel c0 Cell.X c2 c3 c4 c5 c6 c7 c8 true) &&
       (!(c2 == Cell.E) || goodT fuel c0 c1 Cell.X c3 c4 c5 c6 c7 c8 true) &&
       (!(c3 == Cell.E) || goodT fuel c0 c1 c2 Cell.X c4 c5 c6 c7 c8 true) &&
       (!(c4 == Cell.E) || goodT fuel c0 c1 c2 c3 Cell.X c5 c6 c7 c8 true) &&
       (!(c5 == Cell.E) || goodT fuel c0 c1 c2 c3 c4 Cell.X c6 c7 c8 true) &&
       (!(c6 == Cell.E) || goodT fuel c0 c1 c2 c3 c4 c5 Cell.X c7 c8 true) &&
       (!(c7 == Cell.E) || goodT fuel c0 c1 c2 c3 c4 c5 c6 Cell.X c8 true) &&
       (!(c8 == Cell.E) || goodT fuel c0 c1 c2 c3 c4 c5 c6 c7 Cell.X true)))))

/-! ### Basic board lemmas -/

theorem getD_set_self (b : Board) (i : Nat) (m : Cell) (h : i < b.length) :
    (b.set i m).getD i Cell.E = m := by
  simp [List.getD_eq_getElem?_getD, List.getElem?_set_self h]

theorem getD_set_ne (b : Board) (i j : Nat) (m : Cell) (h : i ≠ j) :
    (b.set i m).getD j Cell.E = b.getD j Cell.E := by
  simp [List.getD_eq_getElem?_getD, List.getElem?_set_ne h]

theorem set_empty_self (b : Board) (i : Nat) (h : b.getD i Cell.E = Cell.E) :
    b.set i Cell.E = b := by
  by_cases hi : i < b.length
  · apply List.ext_getElem?
    intro n
    by_cases hn : i = n
    · subst hn
      rw [List.getElem?_set_self hi, List.getElem?_eq_getElem hi]
      rw [List.getD_eq_getElem?_getD, List.getElem?_eq_getElem hi] at h
      simp only [Option.getD_some] at h
      simp [h]
    · rw [List.getElem?_set_ne hn]
  · exact List.set_eq_of_length_le (Nat.le_of_not_lt hi)

/-! ### Loop lemmas for the minimax folds -/

theorem le_maxLoop_acc (f : Nat → Int) (b : Board) :
    ∀ (idxs : List Nat) (acc : Int), acc ≤ maxLoop f b idxs acc := by
  intro idxs
  induction idxs with
  | nil => intro acc; simp [maxLoop]
  | cons i rest ih =>
    intro acc
    by_cases h : b.getD i Cell.E = Cell.E
    · simp only [maxLoop, h, ne_eq, not_true_eq_false, if_false]
      exact le_trans (le_max_left acc (f i)) (ih (max acc (f i)))
    · simp only [maxLoop, ne_eq, h, not_false_eq_true, if_true]
      exact ih acc

theorem le_maxLoop_of_mem (f : Nat → Int) (b : Board) (i : Nat) :
    ∀ (idxs : List Nat) (acc : Int), i ∈ idxs → b.getD i Cell.E = Cell.E →
      f i ≤ maxLoop f b idxs acc := by
  intro idxs
  induction idxs with
  | nil => intro acc h; exact absurd h (List.not_mem_nil i)
  | cons j rest ih =>
    intro acc hmem he
    rcases List.mem_cons.mp hmem with hij | hmem2
    · subst hij
      simp only [maxLoop, he, ne_eq, not_true_eq_false, if_false]
      exact le_trans (le_max_right acc (f i)) (le_maxLoop_acc f b rest _)
    · by_cases h : b.getD j Cell.E = Cell.E
      · simp only [maxLoop, h, ne_eq, not_true_eq_false, if_false]
        exact ih _ hmem2 he
      · simp only [maxLoop, ne_eq, h, not_false_eq_true, if_true]
        exact ih _ hmem2 he

theorem maxLoop_cases (f : Nat → Int) (b : Board) :
    ∀ (idxs : List Nat) (acc : Int),
      maxLoop f b idxs acc = acc ∨
        ∃ i, i ∈ idxs ∧ b.getD i Cell.E = Cell.E ∧ maxLoop f b idxs acc = f i := by
  intro idxs
  induction idxs with
  | nil => intro acc; left; rfl
  | cons j rest ih =>
    intro acc
    by_cases h : b.getD j Cell.E = Cell.E
    · simp only [maxLoop, h, ne_eq, not_true_eq_false, if_false]
      rcases ih (max acc (f j)) with h1 | ⟨i, hi, he, hv⟩
      · rcases max_choice acc (f j) with hm | hm
        · left; rw [h1, hm]
        · right; exact ⟨j, List.mem_cons_self j rest, h, by rw [h1, hm]⟩
      · right; exact ⟨i, List.mem_cons_of_mem j hi, he, hv⟩
    · simp only [maxLoop, ne_eq, h, not_false_eq_true, if_true]
      rcases ih acc with h1 | ⟨i, hi, he, hv⟩
      · left; exact h1
      · right; exact ⟨i, List.mem_cons_of_mem j hi, he, hv⟩

theorem maxLoop_congr (f g : Nat → Int) (b : Board) :
    ∀ (idxs : List Nat) (acc : Int),
      (∀ i ∈ idxs, b.getD i Cell.E = Cell.E → f i = g i) →
      maxLoop f b idxs acc = maxLoop g b idxs acc := by
  intro idxs
  induction idxs with
  | nil => intro acc _; rfl
  | cons j rest ih =>
    intro acc hfg
    by_cases h : b.getD j Cell.E = Cell.E
    · simp only [maxLoop, h, ne_eq, not_true_eq_false, if_false]
      rw [hfg j (List.mem_cons_self j rest) h]
      exact ih _ fun i hi he => hfg i (List.mem_cons_of_mem j hi) he
    · simp only [maxLoop, ne_eq, h, not_false_eq_true, if_true]
      exact ih _ fun i hi he => hfg i (List.mem_cons_of_mem j hi) he

theorem minLoop_le_acc (f : Nat → Int) (b : Board) :
    ∀ (idxs : List Nat) (acc : Int), minLoop f b idxs acc ≤ acc := by
  intro idxs
  induction idxs with
  | nil => intro acc; simp [minLoop]
  | cons i rest ih =>
    intro acc
    by_cases h : b.getD i Cell.E = Cell.E
    · simp only [minLoop, h, ne_eq, not_true_eq_false, if_false]
      exact le_trans (ih (min acc (f i))) (min_le_left acc (f i))
    · simp only [minLoop, ne_eq, h, not_false_eq_true, if_true]
      exact ih acc

theorem minLoop_le_of_mem (f : Nat → Int) (b : Board) (i : Nat) :
    ∀ (idxs : List Nat) (acc : Int), i ∈ idxs → b.getD i Cell.E = Cell.E →
      minLoop f b idxs acc ≤ f i := by
  intro idxs
  induction idxs with
  | nil => intro acc h; exact absurd h (List.not_mem_nil i)
  | cons j rest ih =>
    intro acc hmem he
    rcases List.mem_cons.mp hmem with hij | hmem2
    · subst hij
      simp only [minLoop, he, ne_eq, not_true_eq_false, if_false]
      exact le_trans (minLoop_le_acc f b rest _) (min_le_right acc (f i))
    · by_cases h : b.getD j Cell.E = Cell.E
      · simp only [minLoop, h, ne_eq, not_true_eq_false, if_false]
        exact ih _ hmem2 he
      · simp only [minLoop, ne_eq, h, not_false_eq_true, if_true]
        exact ih _ hmem2 he

theorem minLoop_cases (f : Nat → Int) (b : Board) :
    ∀ (idxs : List Nat) (acc : Int),
      minLoop f b idxs acc = acc ∨
        ∃ i, i ∈ idxs ∧ b.getD i Cell.E = Cell.E ∧ minLoop f b idxs acc = f i := by
  intro idxs
  induction idxs with
  | nil => intro acc; left; rfl
  | cons j rest ih =>
    intro acc
    by_cases h : b.getD j Cell.E = Cell.E
    · simp only [minLoop, h, ne_eq, not_true_eq_false, if_false]
      rcases ih (min acc (f j)) with h1 | ⟨i, hi, he, hv⟩
      · rcases min_choice acc (f j) with hm | hm
        · left; rw [h1, hm]
        · right; exact ⟨j, List.mem_cons_self j rest, h, by rw [h1, hm]⟩
      · right; exact ⟨i, List.mem_cons_of_mem j hi, he, hv⟩
    · simp only [minLoop, ne_eq, h, not_false_eq_true, if_true]
      rcases ih acc with h1 | ⟨i, hi, he, hv⟩
      · left; exact h1
      · right; exact ⟨i, List.mem_cons_of_mem j hi, he, hv⟩

theorem le_minLoop (f : Nat → Int) (b : Board) (v : Int) :
    ∀ (idxs : List Nat) (acc : Int),
      (∀ i ∈ idxs, b.getD i Cell.E = Cell.E → v ≤ f i) → v ≤ acc →
      v ≤ minLoop f b idxs acc := by
  intro idxs
  induction idxs with
  | nil => intro acc _ hacc; exact hacc
  | cons j rest ih =>
    intro acc hall hacc
    by_cases h : b.getD j Cell.E = Cell.E
    · simp only [minLoop, h, ne_eq, not_true_eq_false, if_false]
      exact ih _ (fun i hi he => hall i (List.mem_cons_of_mem j hi) he)
        (le_min hacc (hall j (List.mem_cons_self j rest) h))
    · simp only [minLoop, ne_eq, h, not_false_eq_true, if_true]
      exact ih _ (fun i hi he => hall i (List.mem_cons_of_mem j hi) he) hacc

theorem minLoop_congr (f g : Nat → Int) (b : Board) :
    ∀ (idxs : List Nat) (acc : Int),
      (∀ i ∈ idxs, b.getD i Cell.E = Cell.E → f i = g i) →
      minLoop f b idxs acc = minLoop g b idxs acc := by
  intro idxs
  induction idxs with
  | nil => intro acc _; rfl
  | cons j rest ih =>
    intro acc hfg
    by_cases h : b.getD j Cell.E = Cell.E
    · simp only [minLoop, h, ne_eq, not_true_eq_false, if_false]
      rw [hfg j (List.mem_cons_self j rest) h]
      exact ih _ fun i hi he => hfg i (List.mem_cons_of_mem j hi) he
    · simp only [minLoop, ne_eq, h, not_false_eq_true, if_true]
      exact ih _ fun i hi he => hfg i (List.mem_cons_of_mem j hi) he

/-! ### Counting empty cells -/

theorem countP_update (p q : Nat → Bool) (i : Nat) :
    ∀ l : List Nat, l.Nodup → i ∈ l → p i = true → q i = false →
      (∀ j ∈ l, j ≠ i → q j = p j) → l.countP q + 1 = l.countP p := by
  intro l
  induction l with
  | nil => intro _ h; exact absurd h (List.not_mem_nil i)
  | cons a t ih =>
    intro hnd hmem hp hq hagree
    rcases List.mem_cons.mp hmem with rfl | hmem2
    · have hnotin : i ∉ t := (List.nodup_cons.mp hnd).1
      have ht : t.countP q = t.countP p := by
        apply List.countP_congr
        intro j hj
        have hji : j ≠ i := fun hja => hnotin (hja ▸ hj)
        rw [hagree j (List.mem_cons_of_mem i hj) hji]
      simp only [List.countP_cons, hp, hq, ht]
      simp
    · have hai : a ≠ i := fun h => (List.nodup_cons.mp hnd).1 (h ▸ hmem2)
      have hqa : q a = p a := hagree a (List.mem_cons_self a t) hai
      have ih2 := ih (List.nodup_cons.mp hnd).2 hmem2 hp hq
        (fun j hj hji => hagree j (List.mem_cons_of_mem a hj) hji)
      cases hv : p a
      · simp only [List.countP_cons, hqa, hv]
        simp only [Bool.false_eq_true, if_false]
        omega
      · simp only [List.countP_cons, hqa, hv, if_true]
        omega

theorem countEmptyIdx_le_nine (b : Board) : countEmptyIdx b ≤ 9 := by
  have := List.countP_le_length
    (p := fun i => decide (b.getD i Cell.E = Cell.E)) (l := List.range 9)
  simpa [countEmptyIdx] using this

theorem countEmptyIdx_set (b : Board) (i : Nat) (m : Cell) (h9 : b.length = 9)
    (hi : i < 9) (he : b.getD i Cell.E = Cell.E) (hm : m ≠ Cell.E) :
    countEmptyIdx (b.set i m) + 1 = countEmptyIdx b := by
  apply countP_update _ _ i (List.range 9) (List.nodup_range 9)
    (List.mem_range.mpr hi)
  · simp only [decide_eq_true_eq]
    exact he
  · simp only [decide_eq_false_iff_not]
    rw [getD_set_self b i m (by omega)]
    exact hm
  · intro j _ hji
    have hne := getD_set_ne b i j m (fun h => hji h.symm)
    simp only [hne]

/-! ### Fullness -/

theorem fullAux_eq_true_iff (b : Board) :
    ∀ l : List Nat, fullAux b l = true ↔ ∀ i ∈ l, b.getD i Cell.E ≠ Cell.E := by
  intro l
  induction l with
  | nil => simp [fullAux]
  | cons a t ih =>
    by_cases h : b.getD a Cell.E = Cell.E
    · rw [fullAux, if_pos h]
      constructor
      · intro hf; exact Bool.noConfusion hf
      · intro hall; exact absurd h (hall a (List.mem_cons_self a t))
    · rw [fullAux, if_neg h, ih, List.forall_mem_cons]
      constructor
      · intro hall; exact ⟨h, hall⟩
      · intro hall; exact hall.2

theorem board_is_full_iff (b : Board) :
    board_is_full b = true ↔ ∀ i < 9, b.getD i Cell.E ≠ Cell.E := by
  rw [board_is_full, fullAux_eq_true_iff]
  constructor
  · intro h i hi; exact h i (List.mem_range.mpr hi)
  · intro h i hi; exact h i (List.mem_range.mp hi)

theorem board_is_full_eq_countEmptyIdx (b : Board) :
    board_is_full b = true ↔ countEmptyIdx b = 0 := by
  rw [board_is_full_iff, countEmptyIdx, List.countP_eq_zero]
  constructor
  · intro h i hi
    simp only [decide_eq_true_eq]
    exact h i (List.mem_range.mp hi)
  · intro h i hi
    have := h i (List.mem_range.mpr hi)
    simpa using this

theorem not_full_exists_empty (b : Board) (h : board_is_full b ≠ true) :
    ∃ i, i ∈ List.range 9 ∧ b.getD i Cell.E = Cell.E := by
  by_contra hc
  push_neg at hc
  exact h ((fullAux_eq_true_iff b (List.range 9)).mpr hc)

/-! ### Lemmas on the win scan -/

theorem checkWinAux_eq_none (b : Board) :
    ∀ lines : List (Nat × Nat × Nat),
      (∀ l ∈ lines, ¬lineAll b l Cell.X ∧ ¬lineAll b l Cell.O) →
      checkWinAux b lines = none := by
  intro lines
  induction lines with
  | nil => intro _; rfl
  | cons l t ih =>
    intro h
    obtain ⟨⟨i, j, k⟩, rfl⟩ : ∃ p : Nat × Nat × Nat, p = l := ⟨l, rfl⟩
    have hl := h _ (List.mem_cons_self _ t)
    simp only [lineAll] at hl
    simp only [checkWinAux, if_neg hl.1, if_neg hl.2]
    exact ih fun l2 hl2 => h l2 (List.mem_cons_of_mem _ hl2)

theorem checkWinAux_eq_someO (b : Board) :
    ∀ lines : List (Nat × Nat × Nat),
      (∀ l ∈ lines, ¬lineAll b l Cell.X) →
      (∃ l ∈ lines, lineAll b l Cell.O) →
      checkWinAux b lines = some Cell.O := by
  intro lines
  induction lines with
  | nil => intro _ h; simp at h
  | cons l t ih =>
    intro hx ⟨w, hw, hwall⟩
    obtain ⟨⟨i, j, k⟩, rfl⟩ : ∃ p : Nat × Nat × Nat, p = l := ⟨l, rfl⟩
    have hlx := hx _ (List.mem_cons_self _ t)
    simp only [lineAll] at hlx
    by_cases ho : b.getD i Cell.E = b.getD j Cell.E ∧
        b.getD j Cell.E = b.getD k Cell.E ∧ b.getD k Cell.E = Cell.O
    · simp only [checkWinAux, if_neg hlx, if_pos ho]
    · rcases List.mem_cons.mp hw with rfl | hw2
      · exact absurd hwall ho
      · simp only [checkWinAux, if_neg hlx, if_neg ho]
        exact ih (fun l2 hl2 => hx l2 (List.mem_cons_of_mem _ hl2)) ⟨w, hw2, hwall⟩

theorem checkWinAux_some (b : Board) :
    ∀ (lines : List (Nat × Nat × Nat)) (m : Cell),
      checkWinAux b lines = some m →
      ∃ l ∈ lines, lineAll b l m ∧ (m = Cell.X ∨ m = Cell.O) := by
  intro lines
  induction lines with
  | nil => intro m h; simp [checkWinAux] at h
  | cons l t ih =>
    intro m h
    obtain ⟨⟨i, j, k⟩, rfl⟩ : ∃ p : Nat × Nat × Nat, p = l := ⟨l, rfl⟩
    by_cases hx : b.getD i Cell.E = b.getD j Cell.E ∧
        b.getD j Cell.E = b.getD k Cell.E ∧ b.getD k Cell.E = Cell.X
    · simp only [checkWinAux, if_pos hx, Option.some.injEq] at h
      exact ⟨(i, j, k), List.mem_cons_self _ t, h ▸ hx, h ▸ Or.inl rfl⟩
    · by_cases ho : b.getD i Cell.E = b.getD j Cell.E ∧
          b.getD j Cell.E = b.getD k Cell.E ∧ b.getD k Cell.E = Cell.O
      · simp only [checkWinAux, if_neg hx, if_pos ho, Option.some.injEq] at h
        exact ⟨(i, j, k), List.mem_cons_self _ t, h ▸ ho, h ▸ Or.inr rfl⟩
      · simp only [checkWinAux, if_neg hx, if_neg ho] at h
        obtain ⟨w, hw, hprop⟩ := ih m h
        exact ⟨w, List.mem_cons_of_mem _ hw, hprop⟩

theorem checkWinAux_ne_none (b : Board) (m : Cell) (hm : m = Cell.X ∨ m = Cell.O) :
    ∀ lines : List (Nat × Nat × Nat),
      (∃ l ∈ lines, lineAll b l m) → checkWinAux b lines ≠ none := by
  intro lines
  induction lines with
  | nil => intro h; simp at h
  | cons l t ih =>
    intro ⟨w, hw, hwall⟩
    obtain ⟨⟨i, j, k⟩, rfl⟩ : ∃ p : Nat × Nat × Nat, p = l := ⟨l, rfl⟩
    by_cases hx : b.getD i Cell.E = b.getD j Cell.E ∧
        b.getD j Cell.E = b.getD k Cell.E ∧ b.getD k Cell.E = Cell.X
    · simp only [checkWinAux, if_pos hx]
      exact fun h => Option.noConfusion h
    · by_cases ho : b.getD i Cell.E = b.getD j Cell.E ∧
          b.getD j Cell.E = b.getD k Cell.E ∧ b.getD k Cell.E = Cell.O
      · simp only [checkWinAux, if_neg hx, if_pos ho]
        exact fun h => Option.noConfusion h
      · simp only [checkWinAux, if_neg hx, if_neg ho]
        rcases List.mem_cons.mp hw with rfl | hw2
        · rcases hm with rfl | rfl
          · exact absurd hwall hx
          · exact absurd hwall ho
        · exact ih ⟨w, hw2, hwall⟩

theorem check_win_ne_someE (b : Board) : check_win b ≠ some Cell.E := by
  intro h
  obtain ⟨_, _, _, hm⟩ := checkWinAux_some b win_conditions Cell.E h
  rcases hm with h1 | h1 <;> exact Cell.noConfusion h1

/-! ### Minimax: score range, depth and fuel irrelevance -/

theorem oppOf_ne_E (c : Cell) : oppOf c ≠ Cell.E := by
  rw [oppOf]
  split <;> exact fun h => Cell.noConfusion h

theorem minimaxF_mem (ai : Cell) :
    ∀ (fuel : Nat) (b : Board) (d : Nat) (t : Bool),
      minimaxF ai fuel b d t = -1 ∨ minimaxF ai fuel b d t = 0 ∨
        minimaxF ai fuel b d t = 1 := by
  intro fuel
  induction fuel with
  | zero => intro b d t; right; left; rfl
  | succ fuel ih =>
    intro b d t
    by_cases h1 : check_win b = some (oppOf ai)
    · rw [minimaxF, if_pos h1]; left; rfl
    · by_cases h2 : check_win b ≠ none
      · rw [minimaxF, if_neg h1, if_pos h2]; right; right; rfl
      · by_cases h3 : board_is_full b = true
        · rw [minimaxF, if_neg h1, if_neg h2, if_pos h3]; right; left; rfl
        · obtain ⟨iw, hiw, hew⟩ := not_full_exists_empty b h3
          cases t
          · rw [minimaxF, if_neg h1, if_neg h2, if_neg h3,
              if_neg (by exact fun h => Bool.noConfusion h)]
            rcases minLoop_cases
              (fun i => minimaxF ai fuel (b.set i (oppOf ai)) (d + 1) true) b
              (List.range 9) 2 with hc | ⟨i, _, _, hv⟩
            · have hle : minLoop
                  (fun i => minimaxF ai fuel (b.set i (oppOf ai)) (d + 1) true) b
                  (List.range 9) 2 ≤ minimaxF ai fuel (b.set iw (oppOf ai)) (d + 1) true :=
                minLoop_le_of_mem
                  (fun i => minimaxF ai fuel (b.set i (oppOf ai)) (d + 1) true) b
                  iw (List.range 9) 2 hiw hew
              rcases ih (b.set iw (oppOf ai)) (d + 1) true with h | h | h <;>
                rw [h] at hle <;> rw [hc] at hle <;> omega
            · rw [hv]; exact ih _ _ _
          · rw [minimaxF, if_neg h1, if_neg h2, if_neg h3, if_pos rfl]
            rcases maxLoop_cases
              (fun i => minimaxF ai fuel (b.set i ai) (d + 1) false) b
              (List.range 9) (-2) with hc | ⟨i, _, _, hv⟩
            · have hle : minimaxF ai fuel (b.set iw ai) (d + 1) false ≤ maxLoop
                  (fun i => minimaxF ai fuel (b.set i ai) (d + 1) false) b
                  (List.range 9) (-2) :=
                le_maxLoop_of_mem
                  (fun i => minimaxF ai fuel (b.set i ai) (d + 1) false) b
                  iw (List.range 9) (-2) hiw hew
              rcases ih (b.set iw ai) (d + 1) false with h | h | h <;>
                rw [h] at hle <;> rw [hc] at hle <;> omega
            · rw [hv]; exact ih _ _ _

theorem minimaxF_depth (ai : Cell) :
    ∀ (fuel : Nat) (b : Board) (d1 d2 : Nat) (t : Bool),
      minimaxF ai fuel b d1 t = minimaxF ai fuel b d2 t := by
  intro fuel
  induction fuel with
  | zero => intro b d1 d2 t; rfl
  | succ fuel ih =>
    intro b d1 d2 t
    by_cases h1 : check_win b = some (oppOf ai)
    · rw [minimaxF, if_pos h1, minimaxF, if_pos h1]
    · by_cases h2 : check_win b ≠ none
      · rw [minimaxF, if_neg h1, if_pos h2, minimaxF, if_neg h1, if_pos h2]
      · by_cases h3 : board_is_full b = true
        · rw [minimaxF, if_neg h1, if_neg h2, if_pos h3,
            minimaxF, if_neg h1, if_neg h2, if_pos h3]
        · cases t
          · rw [minimaxF, if_neg h1, if_neg h2, if_neg h3,
              if_neg (by exact fun h => Bool.noConfusion h),
              minimaxF, if_neg h1, if_neg h2, if_neg h3,
              if_neg (by exact fun h => Bool.noConfusion h)]
            exact minLoop_congr _ _ b (List.range 9) 2 fun i _ _ => ih _ _ _ _
          · rw [minimaxF, if_neg h1, if_neg h2, if_neg h3, if_pos rfl,
              minimaxF, if_neg h1, if_neg h2, if_neg h3, if_pos rfl]
            exact maxLoop_congr _ _ b (List.range 9) (-2) fun i _ _ => ih _ _ _ _

theorem minimaxF_fuel (ai : Cell) (hai : ai ≠ Cell.E) :
    ∀ (n : Nat) (b : Board) (f1 f2 d : Nat) (t : Bool),
      b.length = 9 → countEmptyIdx b = n → n < f1 → n < f2 →
      minimaxF ai f1 b d t = minimaxF ai f2 b d t := by
  intro n
  induction n using Nat.strong_induction_on with
  | _ n ih =>
    intro b f1 f2 d t h9 hc hf1 hf2
    obtain ⟨k1, rfl⟩ : ∃ k, f1 = k + 1 := ⟨f1 - 1, by omega⟩
    obtain ⟨k2, rfl⟩ : ∃ k, f2 = k + 1 := ⟨f2 - 1, by omega⟩
    by_cases h1 : check_win b = some (oppOf ai)
    · rw [minimaxF, if_pos h1, minimaxF, if_pos h1]
    · by_cases h2 : check_win b ≠ none
      · rw [minimaxF, if_neg h1, if_pos h2, minimaxF, if_neg h1, if_pos h2]
      · by_cases h3 : board_is_full b = true
        · rw [minimaxF, if_neg h1, if_neg h2, if_pos h3,
            minimaxF, if_neg h1, if_neg h2, if_pos h3]
        · have hn0 : n ≠ 0 := by
            intro h0
            exact h3 ((board_is_full_eq_countEmptyIdx b).mpr (h0 ▸ hc))
          cases t
          · rw [minimaxF, if_neg h1, if_neg h2, if_neg h3,
              if_neg (by exact fun h => Bool.noConfusion h),
              minimaxF, if_neg h1, if_neg h2, if_neg h3,
              if_neg (by exact fun h => Bool.noConfusion h)]
            apply minLoop_congr _ _ b (List.range 9) 2
            intro i hi he
            have hi9 : i < 9 := List.mem_range.mp hi
            have hcnt := countEmptyIdx_set b i (oppOf ai) h9 hi9 he (oppOf_ne_E ai)
            exact ih (n - 1) (by omega) _ _ _ _ _
              (by rw [List.length_set]; exact h9) (by omega) (by omega) (by omega)
          · rw [minimaxF, if_neg h1, if_neg h2, if_neg h3, if_pos rfl,
              minimaxF, if_neg h1, if_neg h2, if_neg h3, if_pos rfl]
            apply maxLoop_congr _ _ b (List.range 9) (-2)
            intro i hi he
            have hi9 : i < 9 := List.mem_range.mp hi
            have hcnt := countEmptyIdx_set b i ai h9 hi9 he hai
            exact ih (n - 1) (by omega) _ _ _ _ _
              (by rw [List.length_set]; exact h9) (by omega) (by omega) (by omega)

theorem minimaxF_eq_minimax (ai : Cell) (hai : ai ≠ Cell.E) (b : Board)
    (h9 : b.length = 9) (fuel d : Nat) (t : Bool)
    (hf : countEmptyIdx b < fuel) : minimaxF ai fuel b d t = minimax ai b d t := by
  have h10 : countEmptyIdx b < 10 := by
    have := countEmptyIdx_le_nine b
    omega
  exact minimaxF_fuel ai hai (countEmptyIdx b) b fuel 10 d t h9 rfl hf h10

theorem minimax_eq_maxLoop (ai : Cell) (hai : ai ≠ Cell.E) (b : Board)
    (h9 : b.length = 9) (d : Nat) (hcw : check_win b = none)
    (hnf : board_is_full b ≠ true) :
    minimax ai b d true =
      maxLoop (fun i => minimax ai (b.set i ai) (d + 1) false) b
        (List.range 9) (-2) := by
  have h1 : ¬check_win b = some (oppOf ai) := by rw [hcw]; exact fun h => Option.noConfusion h
  have h2 : ¬check_win b ≠ none := by rw [hcw]; exact fun h => h rfl
  rw [minimax, show (10 : Nat) = 9 + 1 from rfl, minimaxF,
    if_neg h1, if_neg h2, if_neg hnf, if_pos rfl]
  apply maxLoop_congr _ _ b (List.range 9) (-2)
  intro i hi he
  have hi9 : i < 9 := List.mem_range.mp hi
  have hcnt := countEmptyIdx_set b i ai h9 hi9 he hai
  have hle := countEmptyIdx_le_nine b
  exact minimaxF_eq_minimax ai hai _ (by rw [List.length_set]; exact h9) 9 (d + 1)
    false (by omega)

theorem minimax_eq_minLoop (ai : Cell) (hai : ai ≠ Cell.E) (b : Board)
    (h9 : b.length = 9) (d : Nat) (hcw : check_win b = none)
    (hnf : board_is_full b ≠ true) :
    minimax ai b d false =
      minLoop (fun i => minimax ai (b.set i (oppOf ai)) (d + 1) true) b
        (List.range 9) 2 := by
  have h1 : ¬check_win b = some (oppOf ai) := by rw [hcw]; exact fun h => Option.noConfusion h
  have h2 : ¬check_win b ≠ none := by rw [hcw]; exact fun h => h rfl
  rw [minimax, show (10 : Nat) = 9 + 1 from rfl, minimaxF,
    if_neg h1, if_neg h2, if_neg hnf, if_neg (by exact fun h => Bool.noConfusion h)]
  apply minLoop_congr _ _ b (List.range 9) 2
  intro i hi he
  have hi9 : i < 9 := List.mem_range.mp hi
  have hcnt := countEmptyIdx_set b i (oppOf ai) h9 hi9 he (oppOf_ne_E ai)
  have hle := countEmptyIdx_le_nine b
  exact minimaxF_eq_minimax ai hai _ (by rw [List.length_set]; exact h9) 9 (d + 1)
    true (by omega)

/-! ### Specification of the move-selection loop -/

theorem helperLoop_spec (ai : Cell) (b : Board) :
    ∀ (idxs : List Nat) (bm : Option Nat) (bv : Int),
      (helperLoop ai b idxs bm bv = bm ∧
        ∀ i ∈ idxs, b.getD i Cell.E = Cell.E →
          minimax ai (b.set i ai) 0 false ≤ bv) ∨
      (∃ m, m ∈ idxs ∧ b.getD m Cell.E = Cell.E ∧
        helperLoop ai b idxs bm bv = some m ∧
        bv < minimax ai (b.set m ai) 0 false) := by
  intro idxs
  induction idxs with
  | nil =>
    intro bm bv
    left
    exact ⟨rfl, fun i hi => absurd hi (List.not_mem_nil i)⟩
  | cons j rest ih =>
    intro bm bv
    by_cases hj : b.getD j Cell.E = Cell.E
    · have hunf : helperLoop ai b (j :: rest) bm bv =
          if minimax ai (b.set j ai) 0 false > bv then
            helperLoop ai b rest (some j) (minimax ai (b.set j ai) 0 false)
          else helperLoop ai b rest bm bv := by
        rw [helperLoop, if_neg (fun h => h hj)]
      by_cases hgt : minimax ai (b.set j ai) 0 false > bv
      · rw [hunf, if_pos hgt]
        rcases ih (some j) (minimax ai (b.set j ai) 0 false) with ⟨heq, _⟩ |
          ⟨m, hm, he, heq, hlt⟩
        · right
          exact ⟨j, List.mem_cons_self j rest, hj, heq, hgt⟩
        · right
          exact ⟨m, List.mem_cons_of_mem j hm, he, heq, lt_trans hgt hlt⟩
      · rw [hunf, if_neg hgt]
        rcases ih bm bv with ⟨heq, hall⟩ | ⟨m, hm, he, heq, hlt⟩
        · left
          refine ⟨heq, ?_⟩
          intro i hi he2
          rcases List.mem_cons.mp hi with rfl | hi2
          · exact le_of_not_lt hgt
          · exact hall i hi2 he2
        · right
          exact ⟨m, List.mem_cons_of_mem j hm, he, heq, hlt⟩
    · have hunf : helperLoop ai b (j :: rest) bm bv =
          helperLoop ai b rest bm bv := by
        rw [helperLoop, if_pos hj]
      rw [hunf]
      rcases ih bm bv with ⟨heq, hall⟩ | ⟨m, hm, he, heq, hlt⟩
      · left
        refine ⟨heq, ?_⟩
        intro i hi he2
        rcases List.mem_cons.mp hi with rfl | hi2
        · exact absurd he2 hj
        · exact hall i hi2 he2
      · right
        exact ⟨m, List.mem_cons_of_mem j hm, he, heq, hlt⟩

/-! ### Bridging the Boolean checker to the list world -/

theorem board_eq_nine (b : Board) (h9 : b.length = 9) :
    ∃ c0 c1 c2 c3 c4 c5 c6 c7 c8 : Cell,
      b = [c0, c1, c2, c3, c4, c5, c6, c7, c8] := by
  rcases b with _ | ⟨c0, _ | ⟨c1, _ | ⟨c2, _ | ⟨c3, _ | ⟨c4, _ | ⟨c5, _ |
    ⟨c6, _ | ⟨c7, _ | ⟨c8, _ | ⟨c9, t⟩⟩⟩⟩⟩⟩⟩⟩⟩⟩ <;>
    simp only [List.length_cons, List.length_nil] at h9 <;>
    first
      | omega
      | exact ⟨_, _, _, _, _, _, _, _, _, rfl⟩

theorem winB_false_lines (m c0 c1 c2 c3 c4 c5 c6 c7 c8 : Cell)
    (h : winB m c0 c1 c2 c3 c4 c5 c6 c7 c8 = false) :
    ∀ l ∈ win_conditions,
      ¬lineAll [c0, c1, c2, c3, c4, c5, c6, c7, c8] l m := by
  intro l hl
  simp only [win_conditions, List.mem_cons, List.not_mem_nil, or_false] at hl
  rcases hl with rfl | rfl | rfl | rfl | rfl | rfl | rfl | rfl
  · intro hc
    obtain ⟨e1, e2, e3⟩ : c0 = c1 ∧ c1 = c2 ∧ c2 = m := hc
    simp [winB, e1, e2, e3] at h
  · intro hc
    obtain ⟨e1, e2, e3⟩ : c3 = c4 ∧ c4 = c5 ∧ c5 = m := hc
    simp [winB, e1, e2, e3] at h
  · intro hc
    obtain ⟨e1, e2, e3⟩ : c6 = c7 ∧ c7 = c8 ∧ c8 = m := hc
    simp [winB, e1, e2, e3] at h
  · intro hc
    obtain ⟨e1, e2, e3⟩ : c0 = c3 ∧ c3 = c6 ∧ c6 = m := hc
    simp [winB, e1, e2, e3] at h
  · intro hc
    obtain ⟨e1, e2, e3⟩ : c1 = c4 ∧ c4 = c7 ∧ c7 = m := hc
    simp [winB, e1, e2, e3] at h
  · intro hc
    obtain ⟨e1, e2, e3⟩ : c2 = c5 ∧ c5 = c8 ∧ c8 = m := hc
    simp [winB, e1, e2, e3] at h
  · intro hc
    obtain ⟨e1, e2, e3⟩ : c0 = c4 ∧ c4 = c8 ∧ c8 = m := hc
    simp [winB, e1, e2, e3] at h
  · intro hc
    obtain ⟨e1, e2, e3⟩ : c2 = c4 ∧ c4 = c6 ∧ c6 = m := hc
    simp [winB, e1, e2, e3] at h

theorem winB_true_exists (m c0 c1 c2 c3 c4 c5 c6 c7 c8 : Cell)
    (h : winB m c0 c1 c2 c3 c4 c5 c6 c7 c8 = true) :
    ∃ l ∈ win_conditions,
      lineAll [c0, c1, c2, c3, c4, c5, c6, c7, c8] l m := by
  simp only [winB, Bool.or_eq_true, Bool.and_eq_true, beq_iff_eq] at h
  rcases h with (((((((h | h) | h) | h) | h) | h) | h) | h)
  · exact ⟨(0, 1, 2), by decide, h.1.1, h.1.2, h.2⟩
  · exact ⟨(3, 4, 5), by decide, h.1.1, h.1.2, h.2⟩
  · exact ⟨(6, 7, 8), by decide, h.1.1, h.1.2, h.2⟩
  · exact ⟨(0, 3, 6), by decide, h.1.1, h.1.2, h.2⟩
  · exact ⟨(1, 4, 7), by decide, h.1.1, h.1.2, h.2⟩
  · exact ⟨(2, 5, 8), by decide, h.1.1, h.1.2, h.2⟩
  · exact ⟨(0, 4, 8), by decide, h.1.1, h.1.2, h.2⟩
  · exact ⟨(2, 4, 6), by decide, h.1.1, h.1.2, h.2⟩

theorem fullB_iff (c0 c1 c2 c3 c4 c5 c6 c7 c8 : Cell) :
    fullB c0 c1 c2 c3 c4 c5 c6 c7 c8 = true ↔
      board_is_full [c0, c1, c2, c3, c4, c5, c6, c7, c8] = true := by
  rw [board_is_full_iff]
  simp only [fullB, Bool.and_eq_true, Bool.not_eq_true', beq_eq_false_iff_ne,
    ne_eq]
  constructor
  · intro h i hi
    obtain ⟨⟨⟨⟨⟨⟨⟨⟨h0, h1⟩, h2⟩, h3⟩, h4⟩, h5⟩, h6⟩, h7⟩, h8⟩ := h
    interval_cases i <;> assumption
  · intro h
    refine ⟨⟨⟨⟨⟨⟨⟨⟨?_, ?_⟩, ?_⟩, ?_⟩, ?_⟩, ?_⟩, ?_⟩, ?_⟩, ?_⟩
    · exact h 0 (by omega)
    · exact h 1 (by omega)
    · exact h 2 (by omega)
    · exact h 3 (by omega)
    · exact h 4 (by omega)
    · exact h 5 (by omega)
    · exact h 6 (by omega)
    · exact h 7 (by omega)
    · exact h 8 (by omega)

/-! ### Soundness of the checker against minimax -/

theorem goodT_sound :
    ∀ (fuel : Nat) (c0 c1 c2 c3 c4 c5 c6 c7 c8 : Cell) (d : Nat) (t : Bool),
      goodT fuel c0 c1 c2 c3 c4 c5 c6 c7 c8 t = true →
      0 ≤ minimaxF Cell.O fuel [c0, c1, c2, c3, c4, c5, c6, c7, c8] d t := by
  intro fuel
  induction fuel with
  | zero =>
    intro c0 c1 c2 c3 c4 c5 c6 c7 c8 d t h
    exact absurd h (by rw [goodT]; exact fun hk => Bool.noConfusion hk)
  | succ fuel ih =>
    intro c0 c1 c2 c3 c4 c5 c6 c7 c8 d t h
    cases hwx : winB Cell.X c0 c1 c2 c3 c4 c5 c6 c7 c8 with
    | true =>
      rw [goodT, hwx] at h
      exact Bool.noConfusion h
    | false =>
    have hxlines := winB_false_lines Cell.X c0 c1 c2 c3 c4 c5 c6 c7 c8 hwx
    have h1 : ¬check_win [c0, c1, c2, c3, c4, c5, c6, c7, c8] =
        some (oppOf Cell.O) := by
      intro heq
      obtain ⟨l2, hl2, hall2, _⟩ :=
        checkWinAux_some _ win_conditions (oppOf Cell.O) heq
      exact hxlines l2 hl2 hall2
    cases hwo : winB Cell.O c0 c1 c2 c3 c4 c5 c6 c7 c8 with
    | true =>
      obtain ⟨l, hl, hall⟩ := winB_true_exists Cell.O c0 c1 c2 c3 c4 c5 c6 c7 c8 hwo
      have hcw : check_win [c0, c1, c2, c3, c4, c5, c6, c7, c8] ≠ none :=
        checkWinAux_ne_none _ Cell.O (Or.inr rfl) win_conditions ⟨l, hl, hall⟩
      rw [minimaxF, if_neg h1, if_pos hcw]
      norm_num
    | false =>
    have hnone : check_win [c0, c1, c2, c3, c4, c5, c6, c7, c8] = none :=
      checkWinAux_eq_none _ win_conditions fun l hl =>
        ⟨hxlines l hl, winB_false_lines Cell.O c0 c1 c2 c3 c4 c5 c6 c7 c8 hwo l hl⟩
    have h2 : ¬check_win [c0, c1, c2, c3, c4, c5, c6, c7, c8] ≠ none :=
      fun hk => hk hnone
    cases hfull : fullB c0 c1 c2 c3 c4 c5 c6 c7 c8 with
    | true =>
      rw [minimaxF, if_neg h1, if_neg h2,
        if_pos ((fullB_iff c0 c1 c2 c3 c4 c5 c6 c7 c8).mp hfull)]
    | false =>
    have h3 : ¬board_is_full [c0, c1, c2, c3, c4, c5, c6, c7, c8] = true :=
      fun hk => Bool.noConfusion
        (hfull ▸ (fullB_iff c0 c1 c2 c3 c4 c5 c6 c7 c8).mpr hk)
    rw [goodT, hwx, hwo, hfull, cond_false, cond_false, cond_false] at h
    cases t with
    | true =>
      rw [cond_true] at h
      rw [minimaxF, if_neg h1, if_neg h2, if_neg h3, if_pos rfl]
      simp only [Bool.or_eq_true, Bool.and_eq_true, beq_iff_eq] at h
      rcases h with (((((((⟨he, hg⟩ | ⟨he, hg⟩) | ⟨he, hg⟩) | ⟨he, hg⟩) |
        ⟨he, hg⟩) | ⟨he, hg⟩) | ⟨he, hg⟩) | ⟨he, hg⟩) | ⟨he, hg⟩
      · have hch : 0 ≤ minimaxF Cell.O fuel [Cell.O, c1, c2, c3, c4, c5, c6, c7, c8] (d + 1) false :=
          ih _ _ _ _ _ _ _ _ _ _ _ hg
        have hg2 : List.getD [c0, c1, c2, c3, c4, c5, c6, c7, c8] 0 Cell.E =
            Cell.E := he
        have hle : minimaxF Cell.O fuel [Cell.O, c1, c2, c3, c4, c5, c6, c7, c8] (d + 1) false ≤
            maxLoop (fun i => minimaxF Cell.O fuel
              (List.set [c0, c1, c2, c3, c4, c5, c6, c7, c8] i Cell.O)
              (d + 1) false)
              [c0, c1, c2, c3, c4, c5, c6, c7, c8] (List.range 9) (-2) :=
          le_maxLoop_of_mem _ _ 0 _ _ (by decide) hg2
        exact le_trans hch hle
      · have hch : 0 ≤ minimaxF Cell.O fuel [c0, Cell.O, c2, c3, c4, c5, c6, c7, c8] (d + 1) false :=
          ih _ _ _ _ _ _ _ _ _ _ _ hg
        have hg2 : List.getD [c0, c1, c2, c3, c4, c5, c6, c7, c8] 1 Cell.E =
            Cell.E := he
        have hle : minimaxF Cell.O fuel [c0, Cell.O, c2, c3, c4, c5, c6, c7, c8] (d + 1) false ≤
            maxLoop (fun i => minimaxF Cell.O fuel
              (List.set [c0, c1, c2, c3, c4, c5, c6, c7, c8] i Cell.O)
              (d + 1) false)
              [c0, c1, c2, c3, c4, c5, c6, c7, c8] (List.range 9) (-2) :=
          le_maxLoop_of_mem _ _ 1 _ _ (by decide) hg2
        exact le_trans hch hle
      · have hch : 0 ≤ minimaxF Cell.O fuel [c0, c1, Cell.O, c3, c4, c5, c6, c7, c8] (d + 1) false :=
          ih _ _ _ _ _ _ _ _ _ _ _ hg
        have hg2 : List.getD [c0, c1, c2, c3, c4, c5, c6, c7, c8] 2 Cell.E =
            Cell.E := he
        have hle : minimaxF Cell.O fuel [c0, c1, Cell.O, c3, c4, c5, c6, c7, c8] (d + 1) false ≤
            maxLoop (fun i => minimaxF Cell.O fuel
              (List.set [c0, c1, c2, c3, c4, c5, c6, c7, c8] i Cell.O)
              (d + 1) false)
              [c0, c1, c2, c3, c4, c5, c6, c7, c8] (List.range 9) (-2) :=
          le_maxLoop_of_mem _ _ 2 _ _ (by decide) hg2
        exact le_trans hch hle
      · have hch : 0 ≤ minimaxF Cell.O fuel [c0, c1, c2, Cell.O, c4, c5, c6, c7, c8] (d + 1) false :=
          ih _ _ _ _ _ _ _ _ _ _ _ hg
        have hg2 : List.getD [c0, c1, c2, c3, c4, c5, c6, c7, c8] 3 Cell.E =
            Cell.E := he
        have hle : minimaxF Cell.O fuel [c0, c1, c2, Cell.O, c4, c5, c6, c7, c8] (d + 1) false ≤
            maxLoop (fun i => minimaxF Cell.O fuel
              (List.set [c0, c1, c2, c3, c4, c5, c6, c7, c8] i Cell.O)
              (d + 1) false)
              [c0, c1, c2, c3, c4, c5, c6, c7, c8] (List.range 9) (-2) :=
          le_maxLoop_of_mem _ _ 3 _ _ (by decide) hg2
        exact le_trans hch hle
      · have hch : 0 ≤ minimaxF Cell.O fuel [c0, c1, c2, c3, Cell.O, c5, c6, c7, c8] (d + 1) false :=
          ih _ _ _ _ _ _ _ _ _ _ _ hg
        have hg2 : List.getD [c0, c1, c2, c3, c4, c5, c6, c7, c8] 4 Cell.E =
            Cell.E := he
        have hle : minimaxF Cell.O fuel [c0, c1, c2, c3, Cell.O, c5, c6, c7, c8] (d + 1) false ≤
            maxLoop (fun i => minimaxF Cell.O fuel
              (List.set [c0, c1, c2, c3, c4, c5, c6, c7, c8] i Cell.O)
              (d + 1) false)
              [c0, c1, c2, c3, c4, c5, c6, c7, c8] (List.range 9) (-2) :=
          le_maxLoop_of_mem _ _ 4 _ _ (by decide) hg2
        exact le_trans hch hle
      · have hch : 0 ≤ minimaxF Cell.O fuel [c0, c1, c2, c3, c4, Cell.O, c6, c7, c8] (d + 1) false :=
          ih _ _ _ _ _ _ _ _ _ _ _ hg
        have hg2 : List.getD [c0, c1, c2, c3, c4, c5, c6, c7, c8] 5 Cell.E =
            Cell.E := he
        have hle : minimaxF Cell.O fuel [c0, c1, c2, c3, c4, Cell.O, c6, c7, c8] (d + 1) false ≤
            maxLoop (fun i => minimaxF Cell.O fuel
              (List.set [c0, c1, c2, c3, c4, c5, c6, c7, c8] i Cell.O)
              (d + 1) false)
              [c0, c1, c2, c3, c4, c5, c6, c7, c8] (List.range 9) (-2) :=
          le_maxLoop_of_mem _ _ 5 _ _ (by decide) hg2
        exact le_trans hch hle
      · have hch : 0 ≤ minimaxF Cell.O fuel [c0, c1, c2, c3, c4, c5, Cell.O, c7, c8] (d + 1) false :=
          ih _ _ _ _ _ _ _ _ _ _ _ hg
        have hg2 : List.getD [c0, c1, c2, c3, c4, c5, c6, c7, c8] 6 Cell.E =
            Cell.E := he
        have hle : minimaxF Cell.O fuel [c0, c1, c2, c3, c4, c5, Cell.O, c7, c8] (d + 1) false ≤
            maxLoop (fun i => minimaxF Cell.O fuel
              (List.set [c0, c1, c2, c3, c4, c5, c6, c7, c8] i Cell.O)
              (d + 1) false)
              [c0, c1, c2, c3, c4, c5, c6, c7, c8] (List.range 9) (-2) :=
          le_maxLoop_of_mem _ _ 6 _ _ (by decide) hg2
        exact le_trans hch hle
      · have hch : 0 ≤ minimaxF Cell.O fuel [c0, c1, c2, c3, c4, c5, c6, Cell.O, c8] (d + 1) false :=
          ih _ _ _ _ _ _ _ _ _ _ _ hg
        have hg2 : List.getD [c0, c1, c2, c3, c4, c5, c6, c7, c8] 7 Cell.E =
            Cell.E := he
        have hle : minimaxF Cell.O fuel [c0, c1, c2, c3, c4, c5, c6, Cell.O, c8] (d + 1) false ≤
            maxLoop (fun i => minimaxF Cell.O fuel
              (List.set [c0, c1, c2, c3, c4, c5, c6, c7, c8] i Cell.O)
              (d + 1) false)
              [c0, c1, c2, c3, c4, c5, c6, c7, c8] (List.range 9) (-2) :=
          le_maxLoop_of_mem _ _ 7 _ _ (by decide) hg2
        exact le_trans hch hle
      · have hch : 0 ≤ minimaxF Cell.O fuel [c0, c1, c2, c3, c4, c5, c6, c7, Cell.O] (d + 1) false :=
          ih _ _ _ _ _ _ _ _ _ _ _ hg
        have hg2 : List.getD [c0, c1, c2, c3, c4, c5, c6, c7, c8] 8 Cell.E =
            Cell.E := he
        have hle : minimaxF Cell.O fuel [c0, c1, c2, c3, c4, c5, c6, c7, Cell.O] (d + 1) false ≤
            maxLoop (fun i => minimaxF Cell.O fuel
              (List.set [c0, c1, c2, c3, c4, c5, c6, c7, c8] i Cell.O)
              (d + 1) false)
              [c0, c1, c2, c3, c4, c5, c6, c7, c8] (List.range 9) (-2) :=
          le_maxLoop_of_mem _ _ 8 _ _ (by decide) hg2
        exact le_trans hch hle
    | false =>
      rw [cond_false] at h
      rw [minimaxF, if_neg h1, if_neg h2, if_neg h3,
        if_neg (by exact fun hk => Bool.noConfusion hk)]
      simp only [Bool.and_eq_true] at h
      obtain ⟨⟨⟨⟨⟨⟨⟨⟨h0, h1b⟩, h2b⟩, h3b⟩, h4b⟩, h5b⟩, h6b⟩, h7b⟩, h8b⟩ := h
      apply le_minLoop _ _ _ _ _ ?_ (by norm_num)
      intro i hi he
      have hi9 : i < 9 := List.mem_range.mp hi
      interval_cases i
      · have hek : c0 = Cell.E := he
        rw [hek] at h0
        simp only [beq_self_eq_true, Bool.not_true, Bool.false_or] at h0
        exact ih _ _ _ _ _ _ _ _ _ _ _ h0
      · have hek : c1 = Cell.E := he
        rw [hek] at h1b
        simp only [beq_self_eq_true, Bool.not_true, Bool.false_or] at h1b
        exact ih _ _ _ _ _ _ _ _ _ _ _ h1b
      · have hek : c2 = Cell.E := he
        rw [hek] at h2b
        simp only [beq_self_eq_true, Bool.not_true, Bool.false_or] at h2b
        exact ih _ _ _ _ _ _ _ _ _ _ _ h2b
      · have hek : c3 = Cell.E := he
        rw [hek] at h3b
        simp only [beq_self_eq_true, Bool.not_true, Bool.false_or] at h3b
        exact ih _ _ _ _ _ _ _ _ _ _ _ h3b
      · have hek : c4 = Cell.E := he
        rw [hek] at h4b
        simp only [beq_self_eq_true, Bool.not_true, Bool.false_or] at h4b
        exact ih _ _ _ _ _ _ _ _ _ _ _ h4b
      · have hek : c5 = Cell.E := he
        rw [hek] at h5b
        simp only [beq_self_eq_true, Bool.not_true, Bool.false_or] at h5b
        exact ih _ _ _ _ _ _ _ _ _ _ _ h5b
      · have hek : c6 = Cell.E := he
        rw [hek] at h6b
        simp only [beq_self_eq_true, Bool.not_true, Bool.false_or] at h6b
        exact ih _ _ _ _ _ _ _ _ _ _ _ h6b
      · have hek : c7 = Cell.E := he
        rw [hek] at h7b
        simp only [beq_self_eq_true, Bool.not_true, Bool.false_or] at h7b
        exact ih _ _ _ _ _ _ _ _ _ _ _ h7b
      · have hek : c8 = Cell.E := he
        rw [hek] at h8b
        simp only [beq_self_eq_true, Bool.not_true, Bool.false_or] at h8b
        exact ih _ _ _ _ _ _ _ _ _ _ _ h8b

/-! ### The empty board is safe for the O player -/

set_option maxHeartbeats 64000000 in
theorem goodT_empty :
    goodT 10 Cell.E Cell.E Cell.E Cell.E Cell.E Cell.E Cell.E Cell.E Cell.E
      false = true := by
  decide

theorem minimax_empty_nonneg : 0 ≤ minimax Cell.O emptyBoard 0 false :=
  goodT_sound 10 Cell.E Cell.E Cell.E Cell.E Cell.E Cell.E Cell.E Cell.E Cell.E
    0 false goodT_empty

/-! ### The stateful search equals the pure search and restores the board -/

theorem maxLoopS_eq (rec : Board → Int × Board) (recP : Board → Int)
    (mark : Cell) (hrec : ∀ x, rec x = (recP x, x)) :
    ∀ (idxs : List Nat) (b : Board) (acc : Int),
      maxLoopS rec mark b idxs acc =
        (maxLoop (fun i => recP (b.set i mark)) b idxs acc, b) := by
  intro idxs
  induction idxs with
  | nil => intro b acc; rfl
  | cons i rest ih =>
    intro b acc
    by_cases hg : b.getD i Cell.E = Cell.E
    · have hstep : maxLoopS rec mark b (i :: rest) acc =
          maxLoopS rec mark ((rec (b.set i mark)).2.set i Cell.E) rest
            (max acc (rec (b.set i mark)).1) := by
        rw [maxLoopS, if_neg (fun hk => hk hg)]
      rw [hstep, hrec, maxLoop, if_neg (fun hk => hk hg)]
      simp only [List.set_set, set_empty_self b i hg]
      exact ih b (max acc (recP (b.set i mark)))
    · have hstep : maxLoopS rec mark b (i :: rest) acc =
          maxLoopS rec mark b rest acc := by
        rw [maxLoopS, if_pos hg]
      rw [hstep, maxLoop, if_pos hg]
      exact ih b acc

theorem minLoopS_eq (rec : Board → Int × Board) (recP : Board → Int)
    (mark : Cell) (hrec : ∀ x, rec x = (recP x, x)) :
    ∀ (idxs : List Nat) (b : Board) (acc : Int),
      minLoopS rec mark b idxs acc =
        (minLoop (fun i => recP (b.set i mark)) b idxs acc, b) := by
  intro idxs
  induction idxs with
  | nil => intro b acc; rfl
  | cons i rest ih =>
    intro b acc
    by_cases hg : b.getD i Cell.E = Cell.E
    · have hstep : minLoopS rec mark b (i :: rest) acc =
          minLoopS rec mark ((rec (b.set i mark)).2.set i Cell.E) rest
            (min acc (rec (b.set i mark)).1) := by
        rw [minLoopS, if_neg (fun hk => hk hg)]
      rw [hstep, hrec, minLoop, if_neg (fun hk => hk hg)]
      simp only [List.set_set, set_empty_self b i hg]
      exact ih b (min acc (recP (b.set i mark)))
    · have hstep : minLoopS rec mark b (i :: rest) acc =
          minLoopS rec mark b rest acc := by
        rw [minLoopS, if_pos hg]
      rw [hstep, minLoop, if_pos hg]
      exact ih b acc

theorem minimaxS_eq (ai : Cell) :
    ∀ (fuel : Nat) (b : Board) (d : Nat) (t : Bool),
      minimaxS ai fuel b d t = (minimaxF ai fuel b d t, b) := by
  intro fuel
  induction fuel with
  | zero => intro b d t; rfl
  | succ fuel ih =>
    intro b d t
    by_cases h1 : check_win b = some (oppOf ai)
    · rw [minimaxS, if_pos h1, minimaxF, if_pos h1]
    · by_cases h2 : check_win b ≠ none
      · rw [minimaxS, if_neg h1, if_pos h2, minimaxF, if_neg h1, if_pos h2]
      · by_cases h3 : board_is_full b = true
        · rw [minimaxS, if_neg h1, if_neg h2, if_pos h3,
            minimaxF, if_neg h1, if_neg h2, if_pos h3]
        · cases t with
          | true =>
            rw [minimaxS, if_neg h1, if_neg h2, if_neg h3, if_pos rfl,
              minimaxF, if_neg h1, if_neg h2, if_neg h3, if_pos rfl]
            exact maxLoopS_eq _ (fun x => minimaxF ai fuel x (d + 1) false) ai
              (fun x => ih x (d + 1) false) (List.range 9) b (-2)
          | false =>
            rw [minimaxS, if_neg h1, if_neg h2, if_neg h3,
              if_neg (by exact fun hk => Bool.noConfusion hk),
              minimaxF, if_neg h1, if_neg h2, if_neg h3,
              if_neg (by exact fun hk => Bool.noConfusion hk)]
            exact minLoopS_eq _ (fun x => minimaxF ai fuel x (d + 1) true)
              (oppOf ai) (fun x => ih x (d + 1) true) (List.range 9) b 2

theorem helperLoopS_eq (ai : Cell) :
    ∀ (idxs : List Nat) (b : Board) (bm : Option Nat) (bv : Int),
      helperLoopS (fun x => minimaxS ai 10 x 0 false) ai b idxs bm bv =
        (helperLoop ai b idxs bm bv, b) := by
  intro idxs
  induction idxs with
  | nil => intro b bm bv; rfl
  | cons i rest ih =>
    intro b bm bv
    by_cases hg : b.getD i Cell.E = Cell.E
    · have hres : ((fun x => minimaxS ai 10 x 0 false) (b.set i ai)).2.set i
          Cell.E = b := by
        show (minimaxS ai 10 (b.set i ai) 0 false).2.set i Cell.E = b
        rw [minimaxS_eq ai 10 (b.set i ai) 0 false, List.set_set,
          set_empty_self b i hg]
      have hval : ((fun x => minimaxS ai 10 x 0 false) (b.set i ai)).1 =
          minimax ai (b.set i ai) 0 false := by
        show (minimaxS ai 10 (b.set i ai) 0 false).1 =
          minimax ai (b.set i ai) 0 false
        rw [minimaxS_eq ai 10 (b.set i ai) 0 false]
        rfl
      by_cases hv : minimax ai (b.set i ai) 0 false > bv
      · have hstep : helperLoopS (fun x => minimaxS ai 10 x 0 false) ai b
            (i :: rest) bm bv = helperLoopS (fun x => minimaxS ai 10 x 0 false)
              ai b rest (some i) (minimax ai (b.set i ai) 0 false) := by
          rw [helperLoopS, if_neg (fun hk => hk hg)]
          simp only [hres, hval]
          rw [if_pos hv]
        have hstepP : helperLoop ai b (i :: rest) bm bv =
            helperLoop ai b rest (some i) (minimax ai (b.set i ai) 0 false) := by
          rw [helperLoop, if_neg (fun hk => hk hg)]
          simp only []
          rw [if_pos hv]
        rw [hstep, hstepP]
        exact ih b (some i) (minimax ai (b.set i ai) 0 false)
      · have hstep : helperLoopS (fun x => minimaxS ai 10 x 0 false) ai b
            (i :: rest) bm bv = helperLoopS (fun x => minimaxS ai 10 x 0 false)
              ai b rest bm bv := by
          rw [helperLoopS, if_neg (fun hk => hk hg)]
          simp only [hres, hval]
          rw [if_neg hv]
        have hstepP : helperLoop ai b (i :: rest) bm bv =
            helperLoop ai b rest bm bv := by
          rw [helperLoop, if_neg (fun hk => hk hg)]
          simp only []
          rw [if_neg hv]
        rw [hstep, hstepP]
        exact ih b bm bv
    · have hstep : helperLoopS (fun x => minimaxS ai 10 x 0 false) ai b
          (i :: rest) bm bv = helperLoopS (fun x => minimaxS ai 10 x 0 false)
            ai b rest bm bv := by
        rw [helperLoopS, if_pos hg]
      have hstepP : helperLoop ai b (i :: rest) bm bv =
          helperLoop ai b rest bm bv := by
        rw [helperLoop, if_pos hg]
      rw [hstep, hstepP]
      exact ih b bm bv

theorem get_move_helperS_eq (ai : Cell) (b : Board) :
    get_move_helperS ai b = (get_move_helper ai b, b) :=
  helperLoopS_eq ai (List.range 9) b none (-1)

/-! ### Mark counts under a move -/

theorem count_set_of_empty (b : List Cell) :
    ∀ (i : Nat) (m c : Cell), i < b.length → b.getD i Cell.E = Cell.E →
      c ≠ Cell.E →
      (b.set i m).count c = b.count c + (if c = m then 1 else 0) := by
  induction b with
  | nil => intro i m c hi _ _; simp at hi
  | cons a t ih =>
    intro i m c hi he hc
    cases i with
    | zero =>
      have ha : a = Cell.E := he
      subst ha
      rw [List.set_cons_zero, List.count_cons, List.count_cons]
      have hEc : (Cell.E == c) = false := by
        simp only [beq_eq_false_iff_ne, ne_eq]
        exact fun hk => hc hk.symm
      rw [hEc]
      by_cases hcm : c = m
      · subst hcm
        simp
      · have hmc : (m == c) = false := by
          simp only [beq_eq_false_iff_ne, ne_eq]
          exact fun hk => hcm hk.symm
        rw [hmc, if_neg hcm]
        simp
    | succ n =>
      rw [List.set_cons_succ, List.count_cons, List.count_cons]
      have hn : n < t.length := by
        simp only [List.length_cons] at hi
        omega
      have he2 : t.getD n Cell.E = Cell.E := he
      rw [ih n m c hn he2 hc]
      omega

/-! ### Invariants of reachable game states -/

theorem reach_inv (g : GameState) (h : Reach g) :
    g.board.length = 9 ∧ (g.turn = Cell.X ∨ g.turn = Cell.O) ∧
    (g.turn = Cell.X → g.board.count Cell.X = g.board.count Cell.O) ∧
    (g.turn = Cell.O → g.board.count Cell.X = g.board.count Cell.O + 1) := by
  induction h with
  | init =>
    refine ⟨rfl, Or.inl rfl, fun _ => by decide, fun hk => absurd hk ?_⟩
    exact fun hk => Cell.noConfusion hk
  | step g loc hr hcw hmc hloc he ih =>
    obtain ⟨h9, hturn, hx, ho⟩ := ih
    have hloc9 : loc < g.board.length := by omega
    have hcX := count_set_of_empty g.board loc g.turn Cell.X hloc9 he
      (fun hk => Cell.noConfusion hk)
    have hcO := count_set_of_empty g.board loc g.turn Cell.O hloc9 he
      (fun hk => Cell.noConfusion hk)
    refine ⟨by simp only [List.length_set]; exact h9, ?_, ?_, ?_⟩
    · rcases hturn with hX | hO
      · right; rw [hX]; rfl
      · left; rw [hO]; rfl
    · intro hfX
      rcases hturn with hX | hO
      · exfalso
        rw [hX] at hfX
        exact Cell.noConfusion (hfX : Cell.O = Cell.X)
      · show List.count Cell.X (List.set g.board loc g.turn) =
          List.count Cell.O (List.set g.board loc g.turn)
        rw [hO] at hcX hcO ⊢
        simp at hcX hcO
        have hcounts := ho hO
        omega
    · intro hfO
      rcases hturn with hX | hO
      · show List.count Cell.X (List.set g.board loc g.turn) =
          List.count Cell.O (List.set g.board loc g.turn) + 1
        rw [hX] at hcX hcO ⊢
        simp at hcX hcO
        have hcounts := hx hX
        omega
      · exfalso
        rw [hO] at hfO
        exact Cell.noConfusion (hfO : Cell.X = Cell.O)

theorem reachAI_inv (g : GameState) (h : ReachAI g) :
    g.board.length = 9 ∧ g.moves_count + countEmptyIdx g.board = 9 ∧
    (g.turn = Cell.X → 0 ≤ minimax Cell.O g.board 0 false) ∧
    (g.turn = Cell.O → 0 ≤ minimax Cell.O g.board 0 true) := by
  induction h with
  | init =>
    refine ⟨rfl, by decide, fun _ => minimax_empty_nonneg, fun hk => absurd hk ?_⟩
    exact fun hk => Cell.noConfusion hk
  | stepHuman g loc hr htX hcw hmc hloc he ih =>
    obtain ⟨h9, hcnt, hVmin, _⟩ := ih
    have hvb : 0 ≤ minimax Cell.O g.board 0 false := hVmin htX
    have hloc9 : loc < 9 := by omega
    have hnf : board_is_full g.board ≠ true := by
      intro hf
      have h0 := (board_is_full_eq_countEmptyIdx g.board).mp hf
      omega
    have hunf := minimax_eq_minLoop Cell.O (fun hk => Cell.noConfusion hk)
      g.board h9 0 hcw hnf
    have hchild : minLoop
        (fun i => minimax Cell.O (g.board.set i (oppOf Cell.O)) (0 + 1) true)
        g.board (List.range 9) 2 ≤
        minimax Cell.O (g.board.set loc Cell.X) 1 true :=
      minLoop_le_of_mem _ _ loc _ _ (List.mem_range.mpr hloc9) he
    have hv1 : 0 ≤ minimax Cell.O (g.board.set loc Cell.X) 1 true := by
      rw [hunf] at hvb
      exact le_trans hvb hchild
    have hv : 0 ≤ minimax Cell.O (g.board.set loc Cell.X) 0 true := by
      rw [minimax] at hv1 ⊢
      rw [minimaxF_depth Cell.O 10 (g.board.set loc Cell.X) 0 1 true]
      exact hv1
    have hcset := countEmptyIdx_set g.board loc Cell.X h9 hloc9 he
      (fun hk => Cell.noConfusion hk)
    refine ⟨by simp only [List.length_set]; exact h9, ?_,
      fun hk => absurd hk (fun hk2 => Cell.noConfusion hk2), fun _ => hv⟩
    show g.moves_count + 1 + countEmptyIdx (g.board.set loc Cell.X) = 9
    omega
  | stepAI g m hr htO hcw hmc hh ih =>
    obtain ⟨h9, hcnt, _, _⟩ := ih
    rcases helperLoop_spec Cell.O g.board (List.range 9) none (-1) with
      ⟨heq, _⟩ | ⟨m2, hm2, he2, heq2, hlt2⟩
    · exfalso
      rw [get_move_helper, heq] at hh
      exact Option.noConfusion hh
    · have hmm : m2 = m := by
        rw [get_move_helper, heq2] at hh
        exact Option.some.inj hh
      subst hmm
      have hv : 0 ≤ minimax Cell.O (g.board.set m2 Cell.O) 0 false := by omega
      have hm9 : m2 < 9 := List.mem_range.mp hm2
      have hcset := countEmptyIdx_set g.board m2 Cell.O h9 hm9 he2
        (fun hk => Cell.noConfusion hk)
      refine ⟨by simp only [List.length_set]; exact h9, ?_,
        fun _ => hv, fun hk => absurd hk (fun hk2 => Cell.noConfusion hk2)⟩
      show g.moves_count + 1 + countEmptyIdx (g.board.set m2 Cell.O) = 9
      omega

theorem reachAI_turn (g : GameState) (h : ReachAI g) :
    g.turn = Cell.X ∨ g.turn = Cell.O := by
  cases h with
  | init => exact Or.inl rfl
  | stepHuman g loc _ _ _ _ _ _ => exact Or.inr rfl
  | stepAI g m _ _ _ _ _ => exact Or.inl rfl

/-! ## Claim theorems -/

/-- C1: for every game state reachable from the empty board when the
computer (mark O) selects its moves via the minimax search
(`get_move_helper`) and the opponent plays arbitrary valid moves, the game
is never in a state won by the opponent: every reachable board has either
no completed line or a line completed by the computer, so the final outcome
is a win for the computer or a draw. -/
theorem claim1_ai_never_loses (g : GameState) (h : ReachAI g) :
    check_win g.board = none ∨ check_win g.board = some Cell.O := by
  obtain ⟨h9, _, hX, hO⟩ := reachAI_inv g h
  have hturn := reachAI_turn g h
  cases hcw : check_win g.board with
  | none => left; rfl
  | some m =>
    right
    cases m with
    | E => exact absurd hcw (check_win_ne_someE g.board)
    | X =>
      exfalso
      have hcw2 : check_win g.board = some (oppOf Cell.O) := hcw
      have hval : ∀ t : Bool, minimax Cell.O g.board 0 t = -1 := by
        intro t
        rw [minimax, show (10 : Nat) = 9 + 1 from rfl, minimaxF, if_pos hcw2]
      rcases hturn with hXt | hOt
      · have := hX hXt
        rw [hval false] at this
        omega
      · have := hO hOt
        rw [hval true] at this
        omega
    | O => rfl

/-- Witness for C1: the initial state and the state after the human opens
at cell 0 are reachable, and the conclusion holds there. -/
theorem claim1_witness :
    ReachAI ⟨emptyBoard.set 0 Cell.X, Cell.O, 1⟩ ∧
      (check_win (emptyBoard.set 0 Cell.X) = none ∨
        check_win (emptyBoard.set 0 Cell.X) = some Cell.O) := by
  have hr : ReachAI ⟨emptyBoard.set 0 Cell.X, Cell.O, 1⟩ :=
    ReachAI.stepHuman ⟨emptyBoard, Cell.X, 0⟩ 0 ReachAI.init rfl (by decide)
      (by decide) (by decide) (by decide)
  exact ⟨hr, claim1_ai_never_loses _ hr⟩

/-- C2 counterexample: on the board `[X,X,X, O,O,O, _,_,_]` both marks have
a fully occupied line, but `check_win` returns the first match (X), so the
claimed equivalence "checkWin returns Win(mark) iff some WinLine is fully
occupied by that mark" fails for mark O. -/
theorem claim2_counterexample :
    ¬(specCheckWin [Cell.X, Cell.X, Cell.X, Cell.O, Cell.O, Cell.O,
        Cell.E, Cell.E, Cell.E] = GameOutcome.Win Cell.O ↔
      ∃ l ∈ win_conditions,
        lineAll [Cell.X, Cell.X, Cell.X, Cell.O, Cell.O, Cell.O,
          Cell.E, Cell.E, Cell.E] l Cell.O) := by
  decide

/-- C2 (amended): `checkWin` returns `Win m` only for a mark `m` in
`{X, O}` with a fully occupied WinLine; conversely, if some line is fully
occupied by X or O, it returns `Win` of some mark (the first matching line
in scan order, X checked before O, when several lines are complete); if no
WinLine is complete, the outcome is Draw when all 9 cells are non-empty
and InProgress otherwise; and on the full board `[X,O,X, X,O,O, O,X,X]`
checkWin yields Draw and isFull yields true. -/
theorem claim2_checkwin (b : Board) :
    (∀ m : Cell, specCheckWin b = GameOutcome.Win m →
      (m = Cell.X ∨ m = Cell.O) ∧ ∃ l ∈ win_conditions, lineAll b l m) ∧
    ((∃ m l, (m = Cell.X ∨ m = Cell.O) ∧ l ∈ win_conditions ∧ lineAll b l m) →
      ∃ mw, specCheckWin b = GameOutcome.Win mw) ∧
    ((∀ l ∈ win_conditions, ¬lineAll b l Cell.X ∧ ¬lineAll b l Cell.O) →
      (board_is_full b = true → specCheckWin b = GameOutcome.Draw) ∧
      (board_is_full b ≠ true → specCheckWin b = GameOutcome.InProgress)) ∧
    specCheckWin [Cell.X, Cell.O, Cell.X, Cell.X, Cell.O, Cell.O,
      Cell.O, Cell.X, Cell.X] = GameOutcome.Draw ∧
    board_is_full [Cell.X, Cell.O, Cell.X, Cell.X, Cell.O, Cell.O,
      Cell.O, Cell.X, Cell.X] = true := by
  refine ⟨?_, ?_, ?_, by decide, by decide⟩
  · intro m hm
    rw [specCheckWin] at hm
    cases hcw : check_win b with
    | none =>
      rw [hcw] at hm
      by_cases hf : board_is_full b = true
      · rw [if_pos hf] at hm
        exact GameOutcome.noConfusion hm
      · rw [if_neg hf] at hm
        exact GameOutcome.noConfusion hm
    | some m2 =>
      rw [hcw] at hm
      have hm2 : m2 = m := by
        cases hm
        rfl
      subst hm2
      obtain ⟨l, hl, hall, hmm⟩ := checkWinAux_some b win_conditions m2 hcw
      exact ⟨hmm, l, hl, hall⟩
  · intro ⟨m, l, hm, hl, hall⟩
    have hne : check_win b ≠ none :=
      checkWinAux_ne_none b m hm win_conditions ⟨l, hl, hall⟩
    cases hcw : check_win b with
    | none => exact absurd hcw hne
    | some mw =>
      refine ⟨mw, ?_⟩
      rw [specCheckWin, hcw]
  · intro hno
    have hcw : check_win b = none := checkWinAux_eq_none b win_conditions hno
    constructor
    · intro hf
      rw [specCheckWin, hcw, if_pos hf]
    · intro hf
      rw [specCheckWin, hcw, if_neg hf]

/-- Witness for C2: on the double-line board, a fully occupied line for X
exists, and the theorem yields a `Win` outcome there; the no-line branch is
exercised on the empty board. -/
theorem claim2_witness :
    (∃ mw, specCheckWin [Cell.X, Cell.X, Cell.X, Cell.O, Cell.O, Cell.O,
      Cell.E, Cell.E, Cell.E] = GameOutcome.Win mw) ∧
    specCheckWin emptyBoard = GameOutcome.InProgress := by
  constructor
  · exact (claim2_checkwin _).2.1
      ⟨Cell.X, (0, 1, 2), Or.inl rfl, by decide, by decide⟩
  · exact ((claim2_checkwin emptyBoard).2.2.1 (by decide)).2 (by decide)

/-- C3 counterexample: `update_board` performs no validation at all.  With
the Python index -1 it succeeds, writing the last cell, and on an occupied
cell it silently overwrites; neither input produces a failure. -/
theorem claim3_counterexample :
    update_board ⟨emptyBoard, Cell.X, 0⟩ Cell.X (-1) =
      some ⟨[Cell.E, Cell.E, Cell.E, Cell.E, Cell.E, Cell.E, Cell.E, Cell.E,
        Cell.X], Cell.O, 0⟩ ∧
    update_board ⟨[Cell.X, Cell.E, Cell.E, Cell.E, Cell.E, Cell.E, Cell.E,
        Cell.E, Cell.E], Cell.O, 1⟩ Cell.O 0 =
      some ⟨[Cell.O, Cell.E, Cell.E, Cell.E, Cell.E, Cell.E, Cell.E, Cell.E,
        Cell.E], Cell.X, 1⟩ := by
  decide

/-- C3 (amended): the bounds and occupancy validation lives in
`Player.get_move`, not in `update_board`.  `get_move_check` returns -1 for
an index outside `[0,8]` (in particular -1 and 9) and for an occupied cell,
and returns the spot itself otherwise; `update_board` writes the current
turn's mark unconditionally, succeeding for every location in
`[-len, len)` (negative locations index from the end) and changing no cell
other than the one written, and raises `IndexError` (fails) only outside
that range. -/
theorem claim3_update_board (g : GameState) (t : Cell) (loc : Int) :
    (0 ≤ loc → loc < (g.board.length : Int) →
      update_board g t loc =
        some ⟨g.board.set loc.toNat g.turn, flipTurn g.turn, g.moves_count⟩ ∧
      ∀ j, j ≠ loc.toNat →
        (g.board.set loc.toNat g.turn).getD j Cell.E = g.board.getD j Cell.E) ∧
    (-(g.board.length : Int) ≤ loc → loc < 0 →
      update_board g t loc =
        some ⟨g.board.set (loc + g.board.length).toNat g.turn,
          flipTurn g.turn, g.moves_count⟩) ∧
    ((loc < -(g.board.length : Int) ∨ (g.board.length : Int) ≤ loc) →
      update_board g t loc = none) ∧
    (∀ (b : Board) (spot : Int),
      ((spot < 0 ∨ 8 < spot) → get_move_check b spot = -1) ∧
      (0 ≤ spot → spot ≤ 8 → b.getD spot.toNat Cell.E ≠ Cell.E →
        get_move_check b spot = -1) ∧
      (0 ≤ spot → spot ≤ 8 → b.getD spot.toNat Cell.E = Cell.E →
        get_move_check b spot = spot)) := by
  refine ⟨?_, ?_, ?_, ?_⟩
  · intro h0 hlen
    constructor
    · rw [update_board, pyListSet, if_pos ⟨h0, hlen⟩]
    · intro j hj
      exact getD_set_ne g.board loc.toNat j g.turn (fun hk => hj hk.symm)
  · intro hge hlt
    rw [update_board, pyListSet, if_neg (fun hk => by omega), if_pos ⟨hge, hlt⟩]
  · intro hout
    rw [update_board, pyListSet, if_neg (fun hk => by omega),
      if_neg (fun hk => by omega)]
  · intro b spot
    refine ⟨?_, ?_, ?_⟩
    · intro hout
      rw [get_move_check, if_pos hout]
    · intro h0 h8 hocc
      rw [get_move_check, if_neg (fun hk => by omega), if_pos hocc]
    · intro h0 h8 hemp
      rw [get_move_check, if_neg (fun hk => by omega),
        if_neg (fun hk => hk hemp)]

/-- Witness for C3 (amended): concrete checks at location 3 of the empty
board, and validation results for spots -1, 9, an occupied cell and an
empty cell. -/
theorem claim3_witness :
    update_board ⟨emptyBoard, Cell.X, 0⟩ Cell.O 3 =
      some ⟨emptyBoard.set (Int.toNat 3) Cell.X, flipTurn Cell.X, 0⟩ ∧
    get_move_check emptyBoard (-1) = -1 ∧
    get_move_check emptyBoard 9 = -1 ∧
    get_move_check [Cell.X, Cell.E, Cell.E, Cell.E, Cell.E, Cell.E, Cell.E,
      Cell.E, Cell.E] 0 = -1 ∧
    get_move_check emptyBoard 4 = 4 := by
  refine ⟨((claim3_update_board ⟨emptyBoard, Cell.X, 0⟩ Cell.O 3).1
    (by decide) (by decide)).1, ?_, ?_, ?_, ?_⟩
  · exact ((claim3_update_board ⟨emptyBoard, Cell.X, 0⟩ Cell.O 3).2.2.2
      emptyBoard (-1)).1 (by decide)
  · exact ((claim3_update_board ⟨emptyBoard, Cell.X, 0⟩ Cell.O 3).2.2.2
      emptyBoard 9).1 (by decide)
  · exact ((claim3_update_board ⟨emptyBoard, Cell.X, 0⟩ Cell.O 3).2.2.2
      [Cell.X, Cell.E, Cell.E, Cell.E, Cell.E, Cell.E, Cell.E, Cell.E,
        Cell.E] 0).2.1 (by decide) (by decide) (by decide)
  · exact ((claim3_update_board ⟨emptyBoard, Cell.X, 0⟩ Cell.O 3).2.2.2
      emptyBoard 4).2.2 (by decide) (by decide) (by decide)

/-- C4 counterexample: the board `[X,X,X, _,_,_, _,_,_]` has empty cells
and is not full, yet `get_move_helper` returns `None`, because every
candidate move evaluates to -1 (the opponent has already won) and
`best_value` starts at -1 with a strict comparison. -/
theorem claim4_counterexample :
    List.getD [Cell.X, Cell.X, Cell.X, Cell.E, Cell.E, Cell.E, Cell.E,
      Cell.E, Cell.E] 3 Cell.E = Cell.E ∧
    board_is_full [Cell.X, Cell.X, Cell.X, Cell.E, Cell.E, Cell.E, Cell.E,
      Cell.E, Cell.E] ≠ true ∧
    get_move_helper Cell.O [Cell.X, Cell.X, Cell.X, Cell.E, Cell.E, Cell.E,
      Cell.E, Cell.E, Cell.E] = none := by
  decide

/-- C4 (amended): whenever some empty cell's move evaluates strictly above
-1, `get_move_helper` returns an index in `[0,8]` denoting an empty cell of
the board; it returns `None` both on a full board and when every available
move evaluates to -1. -/
theorem claim4_best_move (ai : Cell) (b : Board)
    (h : ∃ i, i ∈ List.range 9 ∧ b.getD i Cell.E = Cell.E ∧
      -1 < minimax ai (b.set i ai) 0 false) :
    ∃ m, get_move_helper ai b = some m ∧ m ≤ 8 ∧
      b.getD m Cell.E = Cell.E := by
  obtain ⟨i, hi, he, hv⟩ := h
  rcases helperLoop_spec ai b (List.range 9) none (-1) with
    ⟨_, hall⟩ | ⟨m, hm, hem, heq, _⟩
  · have := hall i hi he
    omega
  · exact ⟨m, heq, by have := List.mem_range.mp hm; omega, hem⟩

/-- Witness for C4: with one empty cell left and no winner, the move into
that cell scores 0 > -1, so it is returned. -/
theorem claim4_witness :
    ∃ m, get_move_helper Cell.X [Cell.X, Cell.O, Cell.X, Cell.X, Cell.O,
      Cell.O, Cell.O, Cell.X, Cell.E] = some m ∧ m ≤ 8 ∧
      List.getD [Cell.X, Cell.O, Cell.X, Cell.X, Cell.O, Cell.O, Cell.O,
        Cell.X, Cell.E] m Cell.E = Cell.E :=
  claim4_best_move Cell.X _ ⟨8, by decide, by decide, by decide⟩

/-- C5: the search is observably pure on the board: for every board, fuel,
depth and mode, the stateful `minimax` returns exactly the board it was
given (every mark placed during search is undone), likewise
`get_move_helper`, and their results agree with the pure evaluators. -/
theorem claim5_search_restores (ai : Cell) (fuel : Nat) (b : Board)
    (d : Nat) (t : Bool) :
    (minimaxS ai fuel b d t).2 = b ∧ (get_move_helperS ai b).2 = b ∧
    (minimaxS ai fuel b d t).1 = minimaxF ai fuel b d t ∧
    (get_move_helperS ai b).1 = get_move_helper ai b := by
  refine ⟨?_, ?_, ?_, ?_⟩
  · rw [minimaxS_eq]
  · rw [get_move_helperS_eq]
  · rw [minimaxS_eq]
  · rw [get_move_helperS_eq]

/-- C6: `minimax` performs its terminal checks first and in priority order:
a win of the opponent's mark scores -1; otherwise any win (necessarily the
computer's mark) scores +1; otherwise a full board scores 0; only otherwise
does it recurse, maximizing over the computer's hypothetical moves when
maximizing and minimizing over the opponent's otherwise, and its result is
always one of -1, 0, +1. -/
theorem claim6_minimax_shape (ai : Cell) (b : Board) (d : Nat) (t : Bool) :
    (check_win b = some (oppOf ai) → minimax ai b d t = -1) ∧
    (check_win b = some ai → ai ≠ Cell.E → minimax ai b d t = 1) ∧
    (check_win b = none → board_is_full b = true → minimax ai b d t = 0) ∧
    (check_win b = none → board_is_full b ≠ true → ai ≠ Cell.E →
      b.length = 9 →
      minimax ai b d true =
        maxLoop (fun i => minimax ai (b.set i ai) (d + 1) false) b
          (List.range 9) (-2) ∧
      minimax ai b d false =
        minLoop (fun i => minimax ai (b.set i (oppOf ai)) (d + 1) true) b
          (List.range 9) 2) ∧
    (minimax ai b d t = -1 ∨ minimax ai b d t = 0 ∨ minimax ai b d t = 1) := by
  refine ⟨?_, ?_, ?_, ?_, minimaxF_mem ai 10 b d t⟩
  · intro h
    rw [minimax, show (10 : Nat) = 9 + 1 from rfl, minimaxF, if_pos h]
  · intro h hai
    have h1 : ¬check_win b = some (oppOf ai) := by
      rw [h]
      intro hk
      have : ai = oppOf ai := Option.some.inj hk
      rw [oppOf] at this
      cases ai with
      | E => exact hai rfl
      | X => rw [if_neg (fun hk2 => Cell.noConfusion hk2)] at this
             exact Cell.noConfusion this
      | O => rw [if_pos rfl] at this
             exact Cell.noConfusion this
    have h2 : check_win b ≠ none := by
      rw [h]
      exact fun hk => Option.noConfusion hk
    rw [minimax, show (10 : Nat) = 9 + 1 from rfl, minimaxF, if_neg h1,
      if_pos h2]
  · intro hcw hf
    have h1 : ¬check_win b = some (oppOf ai) := by
      rw [hcw]
      exact fun hk => Option.noConfusion hk
    have h2 : ¬check_win b ≠ none := fun hk => hk hcw
    rw [minimax, show (10 : Nat) = 9 + 1 from rfl, minimaxF, if_neg h1,
      if_neg h2, if_pos hf]
  · intro hcw hnf hai h9
    exact ⟨minimax_eq_maxLoop ai hai b h9 d hcw hnf,
      minimax_eq_minLoop ai hai b h9 d hcw hnf⟩

/-- Witness for C6: the opponent-win case on `[X,X,X, _..]` for the O
player, and the draw case on the full tied board. -/
theorem claim6_witness :
    minimax Cell.O [Cell.X, Cell.X, Cell.X, Cell.E, Cell.E, Cell.E, Cell.E,
      Cell.E, Cell.E] 0 false = -1 ∧
    minimax Cell.O [Cell.X, Cell.O, Cell.X, Cell.X, Cell.O, Cell.O, Cell.O,
      Cell.X, Cell.X] 0 true = 0 := by
  constructor
  · exact (claim6_minimax_shape Cell.O _ 0 false).1 (by decide)
  · exact (claim6_minimax_shape Cell.O _ 0 true).2.2.1 (by decide) (by decide)

set_option maxHeartbeats 4000000 in
/-- C7: on the board `[X,X,_, O,O,_, _,_,_]` with the computer playing O,
`get_move_helper` returns index 2 (blocking X's top-row threat); indices 2
and 5 both evaluate to +1, and the tie is resolved to the first index in
ascending scan order. -/
theorem claim7_block_scenario :
    get_move_helper Cell.O [Cell.X, Cell.X, Cell.E, Cell.O, Cell.O, Cell.E,
      Cell.E, Cell.E, Cell.E] = some 2 ∧
    minimax Cell.O ([Cell.X, Cell.X, Cell.E, Cell.O, Cell.O, Cell.E, Cell.E,
      Cell.E, Cell.E].set 2 Cell.O) 0 false = 1 ∧
    minimax Cell.O ([Cell.X, Cell.X, Cell.E, Cell.O, Cell.O, Cell.E, Cell.E,
      Cell.E, Cell.E].set 5 Cell.O) 0 false = 1 := by
  refine ⟨?_, ?_, ?_⟩ <;> decide

/-- C8: the minimax recursion needs no depth limit: on a 9-cell board its
value is already reached with fuel equal to the number of empty cells
(every recursive call strictly shrinks that number), which is at most 9,
so any fuel above the empty-cell count computes the same score as the
reference evaluator. -/
theorem claim8_terminates (ai : Cell) (b : Board) (fuel d : Nat) (t : Bool)
    (hai : ai ≠ Cell.E) (h9 : b.length = 9)
    (hf : countEmptyIdx b < fuel) :
    minimaxF ai fuel b d t = minimax ai b d t ∧ countEmptyIdx b ≤ 9 :=
  ⟨minimaxF_eq_minimax ai hai b h9 fuel d t hf, countEmptyIdx_le_nine b⟩

/-- Witness for C8: on a board with two empty cells, fuel 3 already agrees
with the reference value. -/
theorem claim8_witness :
    countEmptyIdx [Cell.X, Cell.O, Cell.X, Cell.X, Cell.O, Cell.O, Cell.O,
      Cell.E, Cell.E] < 3 ∧
    minimaxF Cell.X 3 [Cell.X, Cell.O, Cell.X, Cell.X, Cell.O, Cell.O,
      Cell.O, Cell.E, Cell.E] 0 true =
      minimax Cell.X [Cell.X, Cell.O, Cell.X, Cell.X, Cell.O, Cell.O,
        Cell.O, Cell.E, Cell.E] 0 true ∧
    countEmptyIdx [Cell.X, Cell.O, Cell.X, Cell.X, Cell.O, Cell.O, Cell.O,
      Cell.E, Cell.E] ≤ 9 := by
  refine ⟨by decide, ?_, ?_⟩
  · exact (claim8_terminates Cell.X _ 3 0 true (by decide) (by decide)
      (by decide)).1
  · exact (claim8_terminates Cell.X _ 3 0 true (by decide) (by decide)
      (by decide)).2

/-- C9: in every state reachable by the turn controller from the empty
board under valid moves, the two players' mark counts differ by at most
one (X, the first mover, is never behind and at most one ahead), and every
cell holds exactly one of the three values. -/
theorem claim9_alternation (g : GameState) (h : Reach g) :
    (g.board.count Cell.O ≤ g.board.count Cell.X ∧
      g.board.count Cell.X ≤ g.board.count Cell.O + 1) ∧
    ∀ i : Nat, g.board.getD i Cell.E = Cell.E ∨
      g.board.getD i Cell.E = Cell.X ∨ g.board.getD i Cell.E = Cell.O := by
  obtain ⟨h9, hturn, hx, ho⟩ := reach_inv g h
  constructor
  · rcases hturn with hX | hO
    · have := hx hX
      omega
    · have := ho hO
      omega
  · intro i
    cases hcell : g.board.getD i Cell.E with
    | E => exact Or.inl rfl
    | X => exact Or.inr (Or.inl rfl)
    | O => exact Or.inr (Or.inr rfl)

/-- Witness for C9: the state after X moves at cell 4 is reachable and
satisfies the count bounds. -/
theorem claim9_witness :
    Reach ⟨emptyBoard.set 4 Cell.X, Cell.O, 1⟩ ∧
    (List.count Cell.O (emptyBoard.set 4 Cell.X) ≤
        List.count Cell.X (emptyBoard.set 4 Cell.X) ∧
      List.count Cell.X (emptyBoard.set 4 Cell.X) ≤
        List.count Cell.O (emptyBoard.set 4 Cell.X) + 1) := by
  have hr : Reach ⟨emptyBoard.set 4 Cell.X, Cell.O, 1⟩ :=
    Reach.step ⟨emptyBoard, Cell.X, 0⟩ 4 Reach.init (by decide) (by decide)
      (by decide) (by decide)
  exact ⟨hr, (claim9_alternation _ hr).1⟩

/-- C10: the `turn` parameter of `update_board` is dead: any two values of
it yield identical results, and on success the mark written is always the
game's own `turn` attribute, which is then flipped, with `moves_count`
untouched. -/
theorem claim10_turn_ignored (g : GameState) (t1 t2 : Cell) (loc : Int) :
    update_board g t1 loc = update_board g t2 loc ∧
    ∀ g2, update_board g t1 loc = some g2 →
      g2.turn = flipTurn g.turn ∧ g2.moves_count = g.moves_count ∧
      pyListSet g.board loc g.turn = some g2.board := by
  constructor
  · rfl
  · intro g2 h
    rw [update_board] at h
    cases hp : pyListSet g.board loc g.turn with
    | none =>
      rw [hp] at h
      exact Option.noConfusion h
    | some b2 =>
      rw [hp] at h
      have h2 : (⟨b2, flipTurn g.turn, g.moves_count⟩ : GameState) = g2 :=
        Option.some.inj h
      rw [← h2]
      exact ⟨rfl, rfl, rfl⟩

/-- Witness for C10: at the empty-board state the two calls with different
`turn` arguments agree, and the successful write flips the turn, keeps the
move counter and stores the board written with the current turn mark. -/
theorem claim10_witness :
    update_board ⟨emptyBoard, Cell.X, 0⟩ Cell.X 4 =
      update_board ⟨emptyBoard, Cell.X, 0⟩ Cell.O 4 ∧
    (⟨emptyBoard.set 4 Cell.X, Cell.O, 0⟩ : GameState).turn =
      flipTurn Cell.X ∧
    (⟨emptyBoard.set 4 Cell.X, Cell.O, 0⟩ : GameState).moves_count = 0 ∧
    pyListSet emptyBoard 4 Cell.X =
      some (⟨emptyBoard.set 4 Cell.X, Cell.O, 0⟩ : GameState).board := by
  refine ⟨(claim10_turn_ignored ⟨emptyBoard, Cell.X, 0⟩ Cell.X Cell.O 4).1,
    (claim10_turn_ignored ⟨emptyBoard, Cell.X, 0⟩ Cell.X Cell.O 4).2
      ⟨emptyBoard.set 4 Cell.X, Cell.O, 0⟩ (by decide)⟩
